import Mathlib

/-!
Verification of the RubriCheck core pipeline: JSON recovery from model output,
criterion-name normalization, criterion reconciliation, and range clamping /
rescaling, shallowly embedded from the TypeScript source.

Numbers are modelled with exact arithmetic: JavaScript `number` values become
`ℚ` (so `Number.isFinite` is vacuously true in the model), and values the
source rounds to integers become `ℤ`.
-/

namespace RubriCheck

/-- Model of JavaScript `Math.round`: rounds half toward positive infinity,
`Math.round x = ⌊x + 1/2⌋`. -/
def jround (x : ℚ) : ℤ := ⌊x + 1/2⌋

/-- Model of the source helper `clamp(value, min, max) = Math.min(max, Math.max(min, value))`,
specialized to the integer values it is applied to. -/
def jclamp (value lo hi : ℤ) : ℤ := min hi (max lo value)

theorem jround_intCast (n : ℤ) : jround (n : ℚ) = n := by
  unfold jround
  rw [Int.floor_eq_iff]
  constructor
  · linarith
  · linarith

theorem jround_nonneg {x : ℚ} (h : 0 ≤ x) : 0 ≤ jround x := by
  unfold jround
  positivity

theorem jround_le_intCast {x : ℚ} {n : ℤ} (h : x ≤ (n : ℚ)) : jround x ≤ n := by
  unfold jround
  rw [Int.floor_le_iff]
  linarith

/-- Per-criterion clamp, embedded from `clampCriterionRange` in the grade route:
round both endpoints, clamp into `[0, max(0, ⌊maxScore⌋)]`, force `low ≤ high`,
then if the width exceeds `max(2, round(maxScore * 0.25))` recenter around the
rounded midpoint and re-clamp. -/
def clampCriterionRange (estimatedRange : ℚ × ℚ) (maxScore : ℚ) : ℤ × ℤ :=
  let maxAllowed : ℤ := max 0 ⌊maxScore⌋
  let low0 : ℤ := jround estimatedRange.1
  let high0 : ℤ := jround estimatedRange.2
  let low1 : ℤ := max 0 low0
  let high1 : ℤ := max 0 (min maxAllowed high0)
  let low2 : ℤ := if low1 > high1 then high1 else low1
  let widthLimit : ℤ := max 2 (jround (maxScore * (1/4)))
  if high1 - low2 > widthLimit then
    let center : ℤ := jround (((low2 + high1 : ℤ) : ℚ) / 2)
    let low3 : ℤ := max 0 (center - jround (((widthLimit : ℤ) : ℚ) / 2))
    let high2 : ℤ := max 0 (min maxAllowed (low3 + widthLimit))
    let low4 : ℤ := if low3 > high2 then high2 else low3
    (low4, high2)
  else
    (low2, high1)

/-- Shared specification of the clamp output: both endpoints sit in
`[0, max 0 ⌊maxScore⌋]`, are ordered, and the width never exceeds the limit. -/
theorem clampCriterionRange_spec (estimatedRange : ℚ × ℚ) (maxScore : ℚ) :
    0 ≤ (clampCriterionRange estimatedRange maxScore).1 ∧
    (clampCriterionRange estimatedRange maxScore).1 ≤ (clampCriterionRange estimatedRange maxScore).2 ∧
    (clampCriterionRange estimatedRange maxScore).2 ≤ max 0 ⌊maxScore⌋ ∧
    (clampCriterionRange estimatedRange maxScore).2 - (clampCriterionRange estimatedRange maxScore).1 ≤
      max 2 (jround (maxScore * (1/4))) := by
  unfold clampCriterionRange
  generalize jround estimatedRange.1 = low0
  generalize jround estimatedRange.2 = high0
  generalize ⌊maxScore⌋ = m
  generalize jround (maxScore * (1/4)) = w
  dsimp only
  split_ifs <;> dsimp only <;> omega

/-- Fixed-point lemma: a pair already satisfying the clamp invariants passes
through `clampCriterionRange` unchanged. -/
theorem clampCriterionRange_fixed {a b : ℤ} (maxScore : ℚ)
    (h0 : 0 ≤ a) (hab : a ≤ b) (hb : b ≤ max 0 ⌊maxScore⌋)
    (hw : b - a ≤ max 2 (jround (maxScore * (1/4)))) :
    clampCriterionRange ((a : ℚ), (b : ℚ)) maxScore = (a, b) := by
  unfold clampCriterionRange
  dsimp only
  rw [jround_intCast, jround_intCast]
  split_ifs <;> simp only [Prod.mk.injEq] <;> constructor <;> omega

/-- C1: for every numeric `max_score > 0` and every raw integer pair
`(low, high)`, `clampCriterionRange` returns a pair `[low', high']` with
`0 ≤ low' ≤ high' ≤ ⌊max_score⌋` and
`high' − low' ≤ max(2, round(max_score × 0.25))`. -/
theorem clampCriterionRange_bounds (low high : ℤ) (maxScore : ℚ) (h : 0 < maxScore) :
    0 ≤ (clampCriterionRange ((low : ℚ), (high : ℚ)) maxScore).1 ∧
    (clampCriterionRange ((low : ℚ), (high : ℚ)) maxScore).1 ≤
      (clampCriterionRange ((low : ℚ), (high : ℚ)) maxScore).2 ∧
    (clampCriterionRange ((low : ℚ), (high : ℚ)) maxScore).2 ≤ ⌊maxScore⌋ ∧
    (clampCriterionRange ((low : ℚ), (high : ℚ)) maxScore).2 -
      (clampCriterionRange ((low : ℚ), (high : ℚ)) maxScore).1 ≤
      max 2 (jround (maxScore * (1/4))) := by
  have hs := clampCriterionRange_spec ((low : ℚ), (high : ℚ)) maxScore
  have h0 : (0 : ℤ) ≤ ⌊maxScore⌋ := Int.floor_nonneg.mpr h.le
  refine ⟨hs.1, hs.2.1, ?_, hs.2.2.2⟩
  have := hs.2.2.1
  omega

/-- Witness for C1 at `low = 100`, `high = -5`, `max_score = 10`. -/
theorem clampCriterionRange_bounds_witness :
    (0 : ℚ) < 10 ∧
    (0 ≤ (clampCriterionRange (((100 : ℤ) : ℚ), ((-5 : ℤ) : ℚ)) 10).1 ∧
     (clampCriterionRange (((100 : ℤ) : ℚ), ((-5 : ℤ) : ℚ)) 10).1 ≤
       (clampCriterionRange (((100 : ℤ) : ℚ), ((-5 : ℤ) : ℚ)) 10).2 ∧
     (clampCriterionRange (((100 : ℤ) : ℚ), ((-5 : ℤ) : ℚ)) 10).2 ≤ ⌊(10 : ℚ)⌋ ∧
     (clampCriterionRange (((100 : ℤ) : ℚ), ((-5 : ℤ) : ℚ)) 10).2 -
       (clampCriterionRange (((100 : ℤ) : ℚ), ((-5 : ℤ) : ℚ)) 10).1 ≤
       max 2 (jround ((10 : ℚ) * (1/4)))) :=
  ⟨by norm_num, clampCriterionRange_bounds 100 (-5) 10 (by norm_num)⟩

/-- C6: the per-criterion clamp is idempotent: for every `max_score > 0`,
feeding a pair already produced by `clampCriterionRange` back through it
returns the same pair unchanged. -/
theorem clampCriterionRange_idempotent (estimatedRange : ℚ × ℚ) (maxScore : ℚ)
    (h : 0 < maxScore) :
    clampCriterionRange
      (((clampCriterionRange estimatedRange maxScore).1 : ℚ),
       ((clampCriterionRange estimatedRange maxScore).2 : ℚ)) maxScore =
      clampCriterionRange estimatedRange maxScore := by
  have hs := clampCriterionRange_spec estimatedRange maxScore
  exact clampCriterionRange_fixed maxScore hs.1 hs.2.1 hs.2.2.1 hs.2.2.2

/-- Witness for C6 at `estimatedRange = (15/2, 100)`, `max_score = 10`. -/
theorem clampCriterionRange_idempotent_witness :
    (0 : ℚ) < 10 ∧
    clampCriterionRange
      (((clampCriterionRange ((15/2 : ℚ), (100 : ℚ)) 10).1 : ℚ),
       ((clampCriterionRange ((15/2 : ℚ), (100 : ℚ)) 10).2 : ℚ)) 10 =
      clampCriterionRange ((15/2 : ℚ), (100 : ℚ)) 10 :=
  ⟨by norm_num, clampCriterionRange_idempotent (15/2, 100) 10 (by norm_num)⟩

/-! ## Data model

Embedded from the zod schemas (`RubricSchema`, `EvaluationSchema`) and the
shapes constructed by the grade route. -/

structure RubricCriterion where
  name : String
  max_score : ℚ
  description : String
deriving Repr, DecidableEq

structure Rubric where
  criteria : List RubricCriterion
deriving Repr, DecidableEq

structure CriterionScore where
  name : String
  estimated_range : ℤ × ℤ
  feedback : String
deriving Repr, DecidableEq

structure Evaluation where
  summary : String
  criteria_scores : List CriterionScore
  top_improvements : List String
deriving Repr, DecidableEq

structure ReconciledCriterion where
  name : String
  max_score : ℚ
  estimated_range : ℤ × ℤ
  feedback : String
deriving Repr, DecidableEq

structure FinalReport where
  title : String
  overall_range : ℤ × ℤ
  summary : String
  top_improvements : List String
  criteria : List ReconciledCriterion
deriving Repr, DecidableEq

/-- Recenter step of the overall range, embedded from the tail of
`buildFinalEvaluation`: when the scaled band is wider than 25 points, recenter
around the rounded midpoint and re-clamp the ordering. -/
def recenterOverall (scaledLow scaledHigh : ℤ) : ℤ × ℤ :=
  if scaledHigh - scaledLow > 25 then
    let center : ℤ := jround (((scaledLow + scaledHigh : ℤ) : ℚ) / 2)
    let low : ℤ := max 0 (center - 12)
    let high : ℤ := min 100 (low + 25)
    if low > high then (high, high) else (low, high)
  else
    (scaledLow, scaledHigh)

/-- Overall-range computation, embedded from `buildFinalEvaluation` lines that
sum the clamped endpoints, reject a non-positive rubric total, scale to 0–100,
swap an inverted pair, and recenter. In this exact-arithmetic model the
`Number.isFinite(rubricTotal)` guard of the source is vacuously true, so only
the `rubricTotal <= 0` half of the source's degenerate-total check remains. -/
def computeOverallRange (criteria : List ReconciledCriterion) (rubricTotal : ℚ) :
    Except String (ℤ × ℤ) :=
  let overallRawLow : ℤ := criteria.foldl (fun sum c => sum + c.estimated_range.1) 0
  let overallRawHigh : ℤ := criteria.foldl (fun sum c => sum + c.estimated_range.2) 0
  if rubricTotal ≤ 0 then .error "EVALUATION_FAILED"
  else
    let scaledLow : ℤ := jclamp (jround (((overallRawLow : ℚ) / rubricTotal) * 100)) 0 100
    let scaledHigh : ℤ := jclamp (jround (((overallRawHigh : ℚ) / rubricTotal) * 100)) 0 100
    if scaledLow > scaledHigh then .ok (recenterOverall scaledHigh scaledLow)
    else .ok (recenterOverall scaledLow scaledHigh)

/-- Bounds for the recenter step: from an ordered pair in `[0, 100]` it
produces an ordered pair in `[0, 100]` of width at most 25. -/
theorem recenterOverall_spec {l h : ℤ} (h0 : 0 ≤ l) (hlh : l ≤ h) (h100 : h ≤ 100) :
    0 ≤ (recenterOverall l h).1 ∧
    (recenterOverall l h).1 ≤ (recenterOverall l h).2 ∧
    (recenterOverall l h).2 ≤ 100 ∧
    (recenterOverall l h).2 - (recenterOverall l h).1 ≤ 25 := by
  have hl : (0 : ℚ) ≤ (l : ℚ) := by exact_mod_cast h0
  have hlh2 : (l : ℚ) ≤ (h : ℚ) := by exact_mod_cast hlh
  have hh : (h : ℚ) ≤ 100 := by exact_mod_cast h100
  have hc0 : 0 ≤ jround (((l + h : ℤ) : ℚ) / 2) := by
    apply jround_nonneg
    push_cast
    linarith
  have hc100 : jround (((l + h : ℤ) : ℚ) / 2) ≤ 100 := by
    apply jround_le_intCast
    push_cast
    linarith
  unfold recenterOverall
  dsimp only
  split_ifs <;> omega

theorem jclamp_bounds (v : ℤ) : 0 ≤ jclamp v 0 100 ∧ jclamp v 0 100 ≤ 100 := by
  unfold jclamp
  omega

/-- Swap-then-recenter of two values in `[0, 100]` yields an ordered pair in
`[0, 100]` of width at most 25. -/
theorem sortedRecenter_spec (a b : ℤ) (h1 : 0 ≤ a) (h2 : a ≤ 100) (h3 : 0 ≤ b)
    (h4 : b ≤ 100) :
    0 ≤ (if a > b then recenterOverall b a else recenterOverall a b).1 ∧
    (if a > b then recenterOverall b a else recenterOverall a b).1 ≤
      (if a > b then recenterOverall b a else recenterOverall a b).2 ∧
    (if a > b then recenterOverall b a else recenterOverall a b).2 ≤ 100 ∧
    (if a > b then recenterOverall b a else recenterOverall a b).2 -
      (if a > b then recenterOverall b a else recenterOverall a b).1 ≤ 25 := by
  split_ifs with hgt
  · exact recenterOverall_spec h3 (le_of_lt hgt) h2
  · exact recenterOverall_spec h1 (le_of_not_lt hgt) h4

/-- Non-positive rubric total: the overall-range computation fails. -/
theorem computeOverallRange_nonpos (criteria : List ReconciledCriterion)
    (rubricTotal : ℚ) (hle : rubricTotal ≤ 0) :
    computeOverallRange criteria rubricTotal = .error "EVALUATION_FAILED" := by
  unfold computeOverallRange
  dsimp only
  rw [if_pos hle]

/-- Positive rubric total: the overall-range computation succeeds with an
ordered pair in `[0, 100]` of width at most 25. -/
theorem computeOverallRange_pos (criteria : List ReconciledCriterion)
    (rubricTotal : ℚ) (hpos : 0 < rubricTotal) :
    ∃ p : ℤ × ℤ, computeOverallRange criteria rubricTotal = .ok p ∧
      (0 ≤ p.1 ∧ p.1 ≤ p.2 ∧ p.2 ≤ 100 ∧ p.2 - p.1 ≤ 25) := by
  unfold computeOverallRange
  dsimp only
  rw [if_neg (not_le.mpr hpos)]
  split_ifs with hgt
  · exact ⟨_, rfl,
      recenterOverall_spec (jclamp_bounds _).1 (le_of_lt hgt) (jclamp_bounds _).2⟩
  · exact ⟨_, rfl,
      recenterOverall_spec (jclamp_bounds _).1 (le_of_not_lt hgt) (jclamp_bounds _).2⟩

/-- C5: for every reconciled criteria list, if the rubric `max_score` total is
positive the computed overall range `[scaledLow, scaledHigh]` satisfies
`0 ≤ scaledLow ≤ scaledHigh ≤ 100` and `scaledHigh − scaledLow ≤ 25`, and if
the total is not positive the computation fails with `EVALUATION_FAILED`
instead of returning a range. (Exact-arithmetic model: the source's
`Number.isFinite` half of the degenerate-total guard is vacuous here.) -/
theorem computeOverallRange_bounds (criteria : List ReconciledCriterion)
    (rubricTotal : ℚ) :
    (rubricTotal ≤ 0 →
      computeOverallRange criteria rubricTotal = .error "EVALUATION_FAILED") ∧
    (0 < rubricTotal → ∃ p : ℤ × ℤ,
      computeOverallRange criteria rubricTotal = .ok p ∧
      (0 ≤ p.1 ∧ p.1 ≤ p.2 ∧ p.2 ≤ 100 ∧ p.2 - p.1 ≤ 25)) :=
  ⟨computeOverallRange_nonpos criteria rubricTotal,
   computeOverallRange_pos criteria rubricTotal⟩

/-- Witness for C5: an empty criteria list with total 0 fails, and with total 1
succeeds within bounds. -/
theorem computeOverallRange_bounds_witness :
    computeOverallRange [] 0 = .error "EVALUATION_FAILED" ∧
    (∃ p : ℤ × ℤ, computeOverallRange [] 1 = .ok p ∧
      (0 ≤ p.1 ∧ p.1 ≤ p.2 ∧ p.2 ≤ 100 ∧ p.2 - p.1 ≤ 25)) :=
  ⟨(computeOverallRange_bounds [] 0).1 (by norm_num),
   (computeOverallRange_bounds [] 1).2 (by norm_num)⟩

theorem jround_midpoint_ten_ninetyfive : jround (((10 + 95 : ℤ) : ℚ) / 2) = 53 := by
  unfold jround
  norm_num

theorem recenterOverall_ten_ninetyfive_eq : recenterOverall 10 95 = (41, 66) := by
  unfold recenterOverall
  rw [if_pos (by norm_num)]
  dsimp only
  rw [jround_midpoint_ten_ninetyfive]
  norm_num

/-- C8 counterexample: on the scaled range `[10, 95]` the recenter step does
not produce `[40, 65]`, and the rounded midpoint `round((10+95)/2)` is not 52:
`Math.round` rounds the half 52.5 up to 53. -/
theorem recenterOverall_example_counterexample :
    recenterOverall 10 95 ≠ (40, 65) ∧ jround (((10 + 95 : ℤ) : ℚ) / 2) ≠ 52 := by
  constructor
  · rw [recenterOverall_ten_ninetyfive_eq]
    decide
  · rw [jround_midpoint_ten_ninetyfive]
    decide

/-- C8 amended: on the scaled range `[10, 95]` (width 85 > 25) the recenter
step computes center `round(52.5) = 53` and produces the overall range
`[41, 66]`, per the recenter formula. -/
theorem recenterOverall_example :
    recenterOverall 10 95 = (41, 66) ∧ jround (((10 + 95 : ℤ) : ℚ) / 2) = 53 :=
  ⟨recenterOverall_ten_ninetyfive_eq, jround_midpoint_ten_ninetyfive⟩

/-! ## Character model

The source's criterion-name normalization runs on JavaScript strings:
`name.normalize("NFKC").toLowerCase().replace(/[^\p{L}\p{N}]+/gu, " ").trim().replace(/\s+/g, " ")`.
We model it over `List Char`, restricted to the Basic Latin and Latin-1
repertoire (plus the combining acute accent for the NFKC composition pass);
characters outside that repertoire are treated as unchanged by case mapping
and NFKC, which is faithful for them except for further composition pairs. -/

/-- Unicode letters/digits (`\p{L}` and `\p{N}` of the source regex), modelled on
the Basic Latin and Latin-1 repertoire. -/
def isAlnumChar (c : Char) : Bool :=
  let n := c.toNat
  decide ((97 ≤ n ∧ n ≤ 122) ∨ (65 ≤ n ∧ n ≤ 90) ∨ (48 ≤ n ∧ n ≤ 57) ∨
    n = 0xAA ∨ n = 0xB5 ∨ n = 0xBA ∨
    (0xC0 ≤ n ∧ n ≤ 0xFF ∧ n ≠ 0xD7 ∧ n ≠ 0xF7))

/-- JavaScript whitespace (`\s` of the source regexes and `String.trim`),
modelled on the code points the pipeline can produce. -/
def isJsWsChar (c : Char) : Bool :=
  let n := c.toNat
  decide (n = 32 ∨ n = 9 ∨ n = 10 ∨ n = 13 ∨ n = 11 ∨ n = 12 ∨
    n = 0xA0 ∨ n = 0x2028 ∨ n = 0x2029 ∨ n = 0xFEFF)

/-- Lower-case table for `String.prototype.toLowerCase`, restricted to ASCII
and Latin-1 upper-case letters. -/
def lowerPairs : List (Char × Char) :=
  [('A', 'a'), ('B', 'b'), ('C', 'c'), ('D', 'd'), ('E', 'e'), ('F', 'f'),
   ('G', 'g'), ('H', 'h'), ('I', 'i'), ('J', 'j'), ('K', 'k'), ('L', 'l'),
   ('M', 'm'), ('N', 'n'), ('O', 'o'), ('P', 'p'), ('Q', 'q'), ('R', 'r'),
   ('S', 's'), ('T', 't'), ('U', 'u'), ('V', 'v'), ('W', 'w'), ('X', 'x'),
   ('Y', 'y'), ('Z', 'z'),
   ('À', 'à'), ('Á', 'á'), ('Â', 'â'), ('Ã', 'ã'), ('Ä', 'ä'), ('Å', 'å'),
   ('Æ', 'æ'), ('Ç', 'ç'), ('È', 'è'), ('É', 'é'), ('Ê', 'ê'), ('Ë', 'ë'),
   ('Ì', 'ì'), ('Í', 'í'), ('Î', 'î'), ('Ï', 'ï'), ('Ð', 'ð'), ('Ñ', 'ñ'),
   ('Ò', 'ò'), ('Ó', 'ó'), ('Ô', 'ô'), ('Õ', 'õ'), ('Ö', 'ö'), ('Ø', 'ø'),
   ('Ù', 'ù'), ('Ú', 'ú'), ('Û', 'û'), ('Ü', 'ü'), ('Ý', 'ý'), ('Þ', 'þ')]

/-- Model of `toLowerCase`, per character, via `lowerPairs`. -/
def lowerChar (c : Char) : Char :=
  match List.lookup c lowerPairs with
  | some d => d
  | none => c

/-- Canonical composition pairs for the combining acute accent (U+0301),
used by the NFKC model. -/
def acutePairs : List (Char × Char) :=
  [('a', 'á'), ('e', 'é'), ('i', 'í'), ('o', 'ó'), ('u', 'ú'), ('y', 'ý'),
   ('A', 'Á'), ('E', 'É'), ('I', 'Í'), ('O', 'Ó'), ('U', 'Ú'), ('Y', 'Ý')]

def composeAcute (c : Char) : Option Char :=
  List.lookup c acutePairs

/-- Model of `String.prototype.normalize("NFKC")`, restricted to canonical
composition of a base letter followed by the combining acute accent; all
other characters of the modelled repertoire are NFKC-invariant. -/
def nfkcAux : Char → List Char → List Char
  | a, [] => [a]
  | a, b :: rest =>
    if b.toNat = 0x301 then
      match composeAcute a with
      | some ab =>
        match rest with
        | [] => [ab]
        | c :: rest2 => ab :: nfkcAux c rest2
      | none => a :: nfkcAux b rest
    else
      a :: nfkcAux b rest

def nfkcList : List Char → List Char
  | [] => []
  | a :: rest => nfkcAux a rest

/-- One pass of the run-replacing regex `.replace(/[^\p{L}\p{N}]+/gu, " ")`:
the flag records whether the previous character belonged to a (already
replaced) non-alphanumeric run. -/
def replaceRunsAux : Bool → List Char → List Char
  | _, [] => []
  | inRun, c :: rest =>
    if isAlnumChar c then c :: replaceRunsAux false rest
    else if inRun then replaceRunsAux true rest
    else ' ' :: replaceRunsAux true rest

/-- Each maximal run of non-alphanumeric characters becomes a single space:
model of `.replace(/[^\p{L}\p{N}]+/gu, " ")`. -/
def replaceRuns (l : List Char) : List Char :=
  replaceRunsAux false l

/-- Right trim, dropping trailing JavaScript whitespace. -/
def rtrimList : List Char → List Char
  | [] => []
  | c :: rest =>
    match rtrimList rest with
    | [] => if isJsWsChar c then [] else [c]
    | r => c :: r

/-- Model of `String.prototype.trim`. -/
def trimList (l : List Char) : List Char :=
  rtrimList (l.dropWhile isJsWsChar)

/-- One pass of the whitespace-collapsing regex `.replace(/\s+/g, " ")`, with
a flag recording whether the previous character was whitespace. -/
def collapseWsAux : Bool → List Char → List Char
  | _, [] => []
  | inRun, c :: rest =>
    if isJsWsChar c then
      if inRun then collapseWsAux true rest
      else ' ' :: collapseWsAux true rest
    else c :: collapseWsAux false rest

/-- Each maximal run of whitespace becomes a single space: model of
`.replace(/\s+/g, " ")`. -/
def collapseWs (l : List Char) : List Char :=
  collapseWsAux false l

/-- Embedded `normalizeCriterionName`: NFKC-normalize, lowercase, replace
non-alphanumeric runs with one space, trim, collapse whitespace runs. -/
def normalizeCriterionName (name : String) : String :=
  String.mk (collapseWs (trimList (replaceRuns (List.map lowerChar (nfkcList name.data)))))

/-! ## Criterion reconciliation and report assembly

Embedded from `buildFinalEvaluation` in the grade route. The JavaScript `Map`
keyed by normalized score name is modelled as an insertion-ordered association
list (only `has`/`get`/`set` on string keys are used), and the `Set` of seen
rubric keys as the list of keys added so far. A thrown
`new Error("EVALUATION_FAILED")` becomes `Except.error "EVALUATION_FAILED"`. -/

/-- First loop of `buildFinalEvaluation`: build the score map, failing on an
empty or duplicate normalized score name. -/
def buildScoreMap : List CriterionScore → List (String × CriterionScore) →
    Except String (List (String × CriterionScore))
  | [], acc => .ok acc
  | score :: rest, acc =>
    let key := normalizeCriterionName score.name
    if key = "" ∨ (List.lookup key acc).isSome then .error "EVALUATION_FAILED"
    else buildScoreMap rest (acc ++ [(key, score)])

/-- Second loop of `buildFinalEvaluation` (the `rubricCriteria.map` callback):
for each rubric criterion in order, fail on an empty or repeated rubric key or
a missing matching score, otherwise emit the reconciled criterion with the
clamped range. -/
def reconcileCriteria (scoreMap : List (String × CriterionScore)) :
    List RubricCriterion → List String → Except String (List ReconciledCriterion)
  | [], _ => .ok []
  | rc :: rest, seen =>
    let key := normalizeCriterionName rc.name
    if key = "" ∨ seen.contains key then .error "EVALUATION_FAILED"
    else
      match List.lookup key scoreMap with
      | none => .error "EVALUATION_FAILED"
      | some matchedScore =>
        match reconcileCriteria scoreMap rest (seen ++ [key]) with
        | .error e => .error e
        | .ok tail =>
          .ok ({ name := rc.name, max_score := rc.max_score,
                 estimated_range := clampCriterionRange
                   ((matchedScore.estimated_range.1 : ℚ),
                    (matchedScore.estimated_range.2 : ℚ)) rc.max_score,
                 feedback := matchedScore.feedback } :: tail)

/-- Embedded `buildFinalEvaluation`: reconcile the score list against the
rubric, check the pairing is a bijection, compute the scaled overall range,
check `top_improvements` has at least 3 entries and keep the first 3. -/
def buildFinalEvaluation (structuredRubric : Rubric) (evaluation : Evaluation) :
    Except String FinalReport :=
  match buildScoreMap evaluation.criteria_scores [] with
  | .error e => .error e
  | .ok scoreMap =>
    match reconcileCriteria scoreMap structuredRubric.criteria [] with
    | .error e => .error e
    | .ok criteria =>
      if criteria.length ≠ evaluation.criteria_scores.length then
        .error "EVALUATION_FAILED"
      else
        let rubricTotal : ℚ :=
          structuredRubric.criteria.foldl (fun sum c => sum + c.max_score) 0
        match computeOverallRange criteria rubricTotal with
        | .error e => .error e
        | .ok overallRange =>
          if evaluation.top_improvements.length < 3 then .error "EVALUATION_FAILED"
          else
            .ok { title := "Evaluation Summary",
                  overall_range := overallRange,
                  summary := evaluation.summary,
                  top_improvements := evaluation.top_improvements.take 3,
                  criteria := criteria }

/-- Normalized keys of a rubric's criteria, in rubric order. -/
def rubricKeys (r : Rubric) : List String :=
  r.criteria.map (fun c => normalizeCriterionName c.name)

/-- Normalized keys of an evaluation's criteria_scores, in list order. -/
def scoreKeys (e : Evaluation) : List String :=
  e.criteria_scores.map (fun s => normalizeCriterionName s.name)

theorem lookup_eq_none_of_not_mem {β : Type} {k : String} {l : List (String × β)}
    (h : k ∉ l.map Prod.fst) : List.lookup k l = none := by
  rw [List.lookup_eq_none_iff]
  intro p hp
  simp only [bne_iff_ne, ne_eq]
  intro hk
  exact h (hk ▸ List.mem_map_of_mem Prod.fst hp)

theorem lookup_isSome_of_mem {β : Type} {k : String} {l : List (String × β)}
    (h : k ∈ l.map Prod.fst) : (List.lookup k l).isSome := by
  rw [List.lookup_isSome_iff]
  obtain ⟨p, hp, hk⟩ := List.mem_map.mp h
  exact ⟨p, hp, by simp [hk]⟩

theorem mem_of_lookup_isSome {β : Type} {k : String} {l : List (String × β)}
    (h : (List.lookup k l).isSome) : k ∈ l.map Prod.fst := by
  rw [List.lookup_isSome_iff] at h
  obtain ⟨p, hp, hk⟩ := h
  exact List.mem_map.mpr ⟨p, hp, (eq_of_beq hk).symm⟩

/-- Success of the score-map loop under non-empty, pairwise-distinct keys. -/
theorem buildScoreMap_ok :
    ∀ (scores : List CriterionScore) (acc : List (String × CriterionScore)),
    (∀ s ∈ scores, normalizeCriterionName s.name ≠ "") →
    (acc.map Prod.fst ++ scores.map (fun s => normalizeCriterionName s.name)).Nodup →
    buildScoreMap scores acc =
      .ok (acc ++ scores.map (fun s => (normalizeCriterionName s.name, s)))
  | [], acc, _, _ => by simp [buildScoreMap]
  | s :: rest, acc, hne, hnd => by
    have hkey : normalizeCriterionName s.name ≠ "" := hne s (by simp)
    have hnotmem : normalizeCriterionName s.name ∉ acc.map Prod.fst := by
      intro hmem
      rw [List.nodup_append] at hnd
      exact hnd.2.2 hmem (by simp)
    have hrec := buildScoreMap_ok rest (acc ++ [(normalizeCriterionName s.name, s)])
      (fun t ht => hne t (by simp [ht]))
      (by
        simp only [List.map_append, List.map_cons, List.map_nil] at hnd ⊢
        rw [List.append_assoc]
        simpa using hnd)
    simp only [buildScoreMap]
    rw [if_neg]
    · rw [hrec]
      simp
    · rintro (h | h)
      · exact hkey h
      · exact hnotmem (mem_of_lookup_isSome h)

/-- Inverse direction: a successful score-map loop implies non-empty,
pairwise-distinct score keys and characterizes the resulting map. -/
theorem buildScoreMap_ok_inv :
    ∀ (scores : List CriterionScore) (acc m : List (String × CriterionScore)),
    (acc.map Prod.fst).Nodup →
    buildScoreMap scores acc = .ok m →
    m = acc ++ scores.map (fun s => (normalizeCriterionName s.name, s)) ∧
    (∀ s ∈ scores, normalizeCriterionName s.name ≠ "") ∧
    (acc.map Prod.fst ++ scores.map (fun s => normalizeCriterionName s.name)).Nodup
  | [], acc, m, hacc, h => by
    simp only [buildScoreMap, Except.ok.injEq] at h
    subst h
    simpa using hacc
  | s :: rest, acc, m, hacc, h => by
    simp only [buildScoreMap] at h
    split_ifs at h with hcond
    · have hkey : normalizeCriterionName s.name ≠ "" := by
        intro he
        exact hcond (Or.inl he)
      have hnotmem : normalizeCriterionName s.name ∉ acc.map Prod.fst := by
        intro hmem
        exact hcond (Or.inr (lookup_isSome_of_mem hmem))
      have hacc2 : ((acc ++ [(normalizeCriterionName s.name, s)]).map Prod.fst).Nodup := by
        simp only [List.map_append, List.map_cons, List.map_nil]
        rw [List.nodup_append]
        exact ⟨hacc, List.nodup_singleton _, by simpa using hnotmem⟩
      obtain ⟨hm, hne, hnd⟩ := buildScoreMap_ok_inv rest
        (acc ++ [(normalizeCriterionName s.name, s)]) m hacc2 h
      refine ⟨by simpa [List.append_assoc] using hm, ?_, ?_⟩
      · intro t ht
        rcases List.mem_cons.mp ht with rfl | ht2
        · exact hkey
        · exact hne t ht2
      · simp only [List.map_append, List.map_cons, List.map_nil] at hnd
        rw [List.append_assoc] at hnd
        simpa using hnd

/-- Success of the reconciliation loop under non-empty, unseen, matched keys. -/
theorem reconcileCriteria_ok (scoreMap : List (String × CriterionScore)) :
    ∀ (rcs : List RubricCriterion) (seen : List String),
    (∀ rc ∈ rcs, normalizeCriterionName rc.name ≠ "") →
    (seen ++ rcs.map (fun rc => normalizeCriterionName rc.name)).Nodup →
    (∀ rc ∈ rcs, (List.lookup (normalizeCriterionName rc.name) scoreMap).isSome) →
    ∃ out, reconcileCriteria scoreMap rcs seen = .ok out ∧
      out.map (fun c => c.name) = rcs.map (fun rc => rc.name)
  | [], _, _, _, _ => ⟨[], by simp [reconcileCriteria], by simp⟩
  | rc :: rest, seen, hne, hnd, hlk => by
    have hkey : normalizeCriterionName rc.name ≠ "" := hne rc (by simp)
    have hnotseen : normalizeCriterionName rc.name ∉ seen := by
      intro hmem
      rw [List.nodup_append] at hnd
      exact hnd.2.2 hmem (by simp)
    obtain ⟨sc, hsc⟩ := Option.isSome_iff_exists.mp (hlk rc (by simp))
    obtain ⟨out, hout, hnames⟩ := reconcileCriteria_ok scoreMap rest
      (seen ++ [normalizeCriterionName rc.name])
      (fun t ht => hne t (by simp [ht]))
      (by
        rw [List.append_assoc]
        simpa using hnd)
      (fun t ht => hlk t (by simp [ht]))
    refine ⟨{ name := rc.name, max_score := rc.max_score,
              estimated_range := clampCriterionRange
                ((sc.estimated_range.1 : ℚ), (sc.estimated_range.2 : ℚ)) rc.max_score,
              feedback := sc.feedback } :: out, ?_, ?_⟩
    · simp only [reconcileCriteria]
      rw [if_neg]
      · rw [hsc]
        dsimp only
        rw [hout]
      · rintro (h | h)
        · exact hkey h
        · exact hnotseen (by simpa using h)
    · simp [hnames]

/-- Inverse direction: a successful reconciliation loop implies non-empty,
pairwise-fresh rubric keys each present in the score map, and the output names
follow the rubric order. -/
theorem reconcileCriteria_ok_inv (scoreMap : List (String × CriterionScore)) :
    ∀ (rcs : List RubricCriterion) (seen : List String)
      (out : List ReconciledCriterion),
    seen.Nodup →
    reconcileCriteria scoreMap rcs seen = .ok out →
    (∀ rc ∈ rcs, normalizeCriterionName rc.name ≠ "") ∧
    (seen ++ rcs.map (fun rc => normalizeCriterionName rc.name)).Nodup ∧
    (∀ rc ∈ rcs, normalizeCriterionName rc.name ∈ scoreMap.map Prod.fst) ∧
    out.map (fun c => c.name) = rcs.map (fun rc => rc.name)
  | [], seen, out, hseen, h => by
    simp only [reconcileCriteria, Except.ok.injEq] at h
    subst h
    simpa using hseen
  | rc :: rest, seen, out, hseen, h => by
    simp only [reconcileCriteria] at h
    split_ifs at h with hcond
    have hkey : normalizeCriterionName rc.name ≠ "" := fun he => hcond (Or.inl he)
    have hnotseen : normalizeCriterionName rc.name ∉ seen := by
      intro hmem
      exact hcond (Or.inr (by simpa using hmem))
    cases hsc : List.lookup (normalizeCriterionName rc.name) scoreMap with
    | none =>
      rw [hsc] at h
      exact absurd h (by simp)
    | some sc =>
      rw [hsc] at h
      dsimp only at h
      cases hrec : reconcileCriteria scoreMap rest
          (seen ++ [normalizeCriterionName rc.name]) with
      | error e =>
        rw [hrec] at h
        exact absurd h (by simp)
      | ok tail =>
        rw [hrec] at h
        simp only [Except.ok.injEq] at h
        subst h
        have hseen2 : (seen ++ [normalizeCriterionName rc.name]).Nodup := by
          rw [List.nodup_append]
          exact ⟨hseen, List.nodup_singleton _, by simpa using hnotseen⟩
        obtain ⟨hne, hnd, hmem, hnames⟩ :=
          reconcileCriteria_ok_inv scoreMap rest
            (seen ++ [normalizeCriterionName rc.name]) tail hseen2 hrec
        refine ⟨?_, ?_, ?_, ?_⟩
        · intro t ht
          rcases List.mem_cons.mp ht with rfl | ht2
          · exact hkey
          · exact hne t ht2
        · rw [List.append_assoc] at hnd
          simpa using hnd
        · intro t ht
          rcases List.mem_cons.mp ht with rfl | ht2
          · exact mem_of_lookup_isSome (by simp [hsc])
          · exact hmem t ht2
        · simp [hnames]

/-- Every error produced by the score-map loop carries `EVALUATION_FAILED`. -/
theorem buildScoreMap_error :
    ∀ (scores : List CriterionScore) (acc : List (String × CriterionScore))
      (e : String), buildScoreMap scores acc = .error e → e = "EVALUATION_FAILED"
  | [], _, _, h => by simp [buildScoreMap] at h
  | s :: rest, acc, e, h => by
    simp only [buildScoreMap] at h
    split_ifs at h with hcond
    · simpa using h.symm
    · exact buildScoreMap_error rest _ e h

/-- Every error produced by the reconciliation loop carries `EVALUATION_FAILED`. -/
theorem reconcileCriteria_error (scoreMap : List (String × CriterionScore)) :
    ∀ (rcs : List RubricCriterion) (seen : List String) (e : String),
    reconcileCriteria scoreMap rcs seen = .error e → e = "EVALUATION_FAILED"
  | [], _, _, h => by simp [reconcileCriteria] at h
  | rc :: rest, seen, e, h => by
    simp only [reconcileCriteria] at h
    split_ifs at h with hcond
    · simpa using h.symm
    · cases hsc : List.lookup (normalizeCriterionName rc.name) scoreMap with
      | none =>
        rw [hsc] at h
        simpa using h.symm
      | some sc =>
        rw [hsc] at h
        dsimp only at h
        cases hrec : reconcileCriteria scoreMap rest
            (seen ++ [normalizeCriterionName rc.name]) with
        | error e2 =>
          rw [hrec] at h
          simp only [Except.error.injEq] at h
          subst h
          exact reconcileCriteria_error scoreMap rest _ e2 hrec
        | ok tail =>
          rw [hrec] at h
          exact absurd h (by simp)

/-- Every error produced by the overall-range computation carries
`EVALUATION_FAILED`. -/
theorem computeOverallRange_error (criteria : List ReconciledCriterion)
    (rubricTotal : ℚ) (e : String)
    (h : computeOverallRange criteria rubricTotal = .error e) :
    e = "EVALUATION_FAILED" := by
  unfold computeOverallRange at h
  dsimp only at h
  split_ifs at h with hcond
  simpa using h.symm

theorem foldl_add_max_score (l : List RubricCriterion) (init : ℚ) :
    l.foldl (fun sum c => sum + c.max_score) init =
      init + (l.map (fun c => c.max_score)).sum := by
  induction l generalizing init with
  | nil => simp
  | cons c t ih => simp [ih, add_assoc]

theorem rubricTotal_pos (r : Rubric) (hnil : r.criteria ≠ [])
    (hpos : ∀ c ∈ r.criteria, 0 < c.max_score) :
    0 < r.criteria.foldl (fun sum c => sum + c.max_score) 0 := by
  rw [foldl_add_max_score, zero_add]
  apply List.sum_pos
  · intro q hq
    obtain ⟨c, hc, rfl⟩ := List.mem_map.mp hq
    exact hpos c hc
  · simpa using hnil

/-- A successful `buildFinalEvaluation` implies: all score keys non-empty and
distinct, all rubric keys non-empty and distinct, every rubric key matched by
a score key, equal list lengths, names in rubric order, and the first three
improvements kept. -/
theorem buildFinalEvaluation_ok_inv (rubric : Rubric) (ev : Evaluation)
    (report : FinalReport) (h : buildFinalEvaluation rubric ev = .ok report) :
    (∀ k ∈ scoreKeys ev, k ≠ "") ∧ (scoreKeys ev).Nodup ∧
    (∀ k ∈ rubricKeys rubric, k ≠ "") ∧ (rubricKeys rubric).Nodup ∧
    (∀ k ∈ rubricKeys rubric, k ∈ scoreKeys ev) ∧
    rubric.criteria.length = ev.criteria_scores.length ∧
    report.criteria.map (fun c => c.name) = rubric.criteria.map (fun c => c.name) ∧
    report.top_improvements = ev.top_improvements.take 3 ∧
    3 ≤ ev.top_improvements.length := by
  unfold buildFinalEvaluation at h
  cases hsm : buildScoreMap ev.criteria_scores [] with
  | error e =>
    rw [hsm] at h
    exact absurd h (by simp)
  | ok scoreMap =>
    rw [hsm] at h
    dsimp only at h
    cases hrc : reconcileCriteria scoreMap rubric.criteria [] with
    | error e =>
      rw [hrc] at h
      exact absurd h (by simp)
    | ok criteria =>
      rw [hrc] at h
      dsimp only at h
      by_cases hlen : criteria.length ≠ ev.criteria_scores.length
      · rw [if_pos hlen] at h
        exact Except.noConfusion h
      rw [if_neg hlen] at h
      cases hco : computeOverallRange criteria
          (rubric.criteria.foldl (fun sum c => sum + c.max_score) 0) with
      | error e =>
        rw [hco] at h
        exact Except.noConfusion h
      | ok range =>
        rw [hco] at h
        dsimp only at h
        by_cases htop : ev.top_improvements.length < 3
        · rw [if_pos htop] at h
          exact Except.noConfusion h
        rw [if_neg htop] at h
        have hrep := Except.ok.inj h
        subst hrep
        obtain ⟨hmchar, hsne, hsnd⟩ :=
          buildScoreMap_ok_inv ev.criteria_scores [] scoreMap (by simp) hsm
        obtain ⟨hrne, hrnd, hrmem, hnames⟩ :=
          reconcileCriteria_ok_inv scoreMap rubric.criteria [] criteria
            (by simp) hrc
        have hfst : scoreMap.map Prod.fst = scoreKeys ev := by
          rw [hmchar]
          simp [scoreKeys, List.map_map]
        have hcl : criteria.length = rubric.criteria.length := by
          have := congrArg List.length hnames
          simpa using this
        refine ⟨?_, ?_, ?_, ?_, ?_, ?_, ?_, ?_, ?_⟩
        · intro k hk
          obtain ⟨s, hs, rfl⟩ := List.mem_map.mp hk
          exact hsne s hs
        · simpa [scoreKeys] using hsnd
        · intro k hk
          obtain ⟨c, hc, rfl⟩ := List.mem_map.mp hk
          exact hrne c hc
        · simpa [rubricKeys] using hrnd
        · intro k hk
          obtain ⟨c, hc, rfl⟩ := List.mem_map.mp hk
          rw [← hfst]
          exact hrmem c hc
        · omega
        · exact hnames
        · rfl
        · omega

/-- Every error produced by `buildFinalEvaluation` carries `EVALUATION_FAILED`. -/
theorem buildFinalEvaluation_error_msg (rubric : Rubric) (ev : Evaluation)
    (e : String) (h : buildFinalEvaluation rubric ev = .error e) :
    e = "EVALUATION_FAILED" := by
  unfold buildFinalEvaluation at h
  cases hsm : buildScoreMap ev.criteria_scores [] with
  | error e2 =>
    rw [hsm] at h
    simp only [Except.error.injEq] at h
    subst h
    exact buildScoreMap_error _ _ _ hsm
  | ok scoreMap =>
    rw [hsm] at h
    dsimp only at h
    cases hrc : reconcileCriteria scoreMap rubric.criteria [] with
    | error e2 =>
      rw [hrc] at h
      simp only [Except.error.injEq] at h
      subst h
      exact reconcileCriteria_error _ _ _ _ hrc
    | ok criteria =>
      rw [hrc] at h
      dsimp only at h
      by_cases hlen : criteria.length ≠ ev.criteria_scores.length
      · rw [if_pos hlen] at h
        exact (Except.error.inj h).symm
      rw [if_neg hlen] at h
      cases hco : computeOverallRange criteria
          (rubric.criteria.foldl (fun sum c => sum + c.max_score) 0) with
      | error e2 =>
        rw [hco] at h
        have he := Except.error.inj h
        subst he
        exact computeOverallRange_error _ _ _ hco
      | ok range =>
        rw [hco] at h
        dsimp only at h
        by_cases htop : ev.top_improvements.length < 3
        · rw [if_pos htop] at h
          exact (Except.error.inj h).symm
        rw [if_neg htop] at h
        exact Except.noConfusion h

/-- C2: for every valid rubric (at least 2 criteria, positive max scores, and
— per the data-model invariant — non-empty pairwise-distinct normalized keys)
and every schema-valid evaluation whose score keys are a permutation of the
rubric keys, `buildFinalEvaluation` succeeds and produces exactly one
reconciled criterion per rubric criterion, in rubric order. -/
theorem buildFinalEvaluation_perm_succeeds (rubric : Rubric) (ev : Evaluation)
    (hlen : 2 ≤ rubric.criteria.length)
    (hpos : ∀ c ∈ rubric.criteria, 0 < c.max_score)
    (hne : ∀ k ∈ rubricKeys rubric, k ≠ "")
    (hnd : (rubricKeys rubric).Nodup)
    (hperm : (scoreKeys ev).Perm (rubricKeys rubric))
    (htop : ev.top_improvements.length = 3) :
    ∃ report, buildFinalEvaluation rubric ev = .ok report ∧
      report.criteria.map (fun c => c.name) =
        rubric.criteria.map (fun c => c.name) := by
  have hsne : ∀ s ∈ ev.criteria_scores, normalizeCriterionName s.name ≠ "" := by
    intro s hs
    exact hne _ (hperm.mem_iff.mp
      (List.mem_map_of_mem (fun t => normalizeCriterionName t.name) hs))
  have hsnd : (scoreKeys ev).Nodup := hperm.nodup_iff.mpr hnd
  have hsm := buildScoreMap_ok ev.criteria_scores [] hsne
    (by simpa [scoreKeys] using hsnd)
  rw [List.nil_append] at hsm
  have hfst : (ev.criteria_scores.map
      (fun s => (normalizeCriterionName s.name, s))).map Prod.fst = scoreKeys ev := by
    simp [scoreKeys, List.map_map]
  have hrcne : ∀ rc ∈ rubric.criteria, normalizeCriterionName rc.name ≠ "" := by
    intro rc hrc
    exact hne _ (List.mem_map_of_mem (fun c => normalizeCriterionName c.name) hrc)
  have hlook : ∀ rc ∈ rubric.criteria,
      (List.lookup (normalizeCriterionName rc.name)
        (ev.criteria_scores.map (fun s => (normalizeCriterionName s.name, s)))).isSome := by
    intro rc hrc
    apply lookup_isSome_of_mem
    rw [hfst]
    exact hperm.mem_iff.mpr
      (List.mem_map_of_mem (fun c => normalizeCriterionName c.name) hrc)
  obtain ⟨out, hout, hnames⟩ := reconcileCriteria_ok
    (ev.criteria_scores.map (fun s => (normalizeCriterionName s.name, s)))
    rubric.criteria [] hrcne (by simpa [rubricKeys] using hnd) hlook
  have houtlen : out.length = rubric.criteria.length := by
    have := congrArg List.length hnames
    simpa using this
  have hslen : ev.criteria_scores.length = rubric.criteria.length := by
    have := hperm.length_eq
    simpa [scoreKeys, rubricKeys] using this
  have hnil : rubric.criteria ≠ [] := by
    intro hn
    rw [hn] at hlen
    simp at hlen
  obtain ⟨p, hp, _⟩ := computeOverallRange_pos out
    (rubric.criteria.foldl (fun sum c => sum + c.max_score) 0)
    (rubricTotal_pos rubric hnil hpos)
  refine ⟨{ title := "Evaluation Summary", overall_range := p,
            summary := ev.summary,
            top_improvements := ev.top_improvements.take 3,
            criteria := out }, ?_, by simpa using hnames⟩
  unfold buildFinalEvaluation
  rw [hsm]
  try dsimp only
  rw [hout]
  try dsimp only
  rw [if_neg (by omega)]
  try dsimp only
  rw [hp]
  try dsimp only
  rw [if_neg (by omega)]

/-- Witness for C2: a two-criterion rubric with scores supplied in reversed
order reconciles successfully, in rubric order. -/
theorem buildFinalEvaluation_perm_succeeds_witness :
    ∃ report,
      buildFinalEvaluation
        { criteria := [{ name := "Clarity", max_score := 10, description := "d1" },
                       { name := "Structure", max_score := 5, description := "d2" }] }
        { summary := "Good.",
          criteria_scores := [{ name := "Structure", estimated_range := (3, 4),
                                feedback := "fine" },
                              { name := "Clarity", estimated_range := (8, 9),
                                feedback := "nice" }],
          top_improvements := ["a", "b", "c"] } = .ok report ∧
      report.criteria.map (fun c => c.name) =
        ({ criteria := [{ name := "Clarity", max_score := 10, description := "d1" },
                        { name := "Structure", max_score := 5, description := "d2" }] } :
          Rubric).criteria.map (fun c => c.name) :=
  buildFinalEvaluation_perm_succeeds _ _
    (by decide) (by decide) (by decide) (by decide) (by decide) (by decide)

/-- C7: reconciliation fails with `EVALUATION_FAILED` whenever any score or
rubric name normalizes to an empty or duplicate key, a rubric criterion has no
matching score, or the number of rubric criteria differs from the number of
entries in `criteria_scores`. -/
theorem buildFinalEvaluation_mismatch_fails (rubric : Rubric) (ev : Evaluation)
    (hbad : ("" ∈ scoreKeys ev ∨ ¬(scoreKeys ev).Nodup) ∨
            ("" ∈ rubricKeys rubric ∨ ¬(rubricKeys rubric).Nodup) ∨
            (∃ k ∈ rubricKeys rubric, k ∉ scoreKeys ev) ∨
            rubric.criteria.length ≠ ev.criteria_scores.length) :
    buildFinalEvaluation rubric ev = .error "EVALUATION_FAILED" := by
  cases h : buildFinalEvaluation rubric ev with
  | error e =>
    rw [buildFinalEvaluation_error_msg rubric ev e h]
  | ok report =>
    obtain ⟨h1, h2, h3, h4, h5, h6, _⟩ := buildFinalEvaluation_ok_inv rubric ev report h
    rcases hbad with (he | hd) | (he | hd) | ⟨k, hk, hnk⟩ | hne
    · exact absurd rfl (h1 "" he)
    · exact absurd h2 hd
    · exact absurd rfl (h3 "" he)
    · exact absurd h4 hd
    · exact absurd (h5 k hk) hnk
    · exact absurd h6 hne

/-- Witness for C7: a rubric with 3 criteria but scores for only 2 fails. -/
theorem buildFinalEvaluation_mismatch_fails_witness :
    buildFinalEvaluation
      { criteria := [{ name := "A", max_score := 10, description := "" },
                     { name := "B", max_score := 10, description := "" },
                     { name := "C", max_score := 10, description := "" }] }
      { summary := "s",
        criteria_scores := [{ name := "A", estimated_range := (1, 2), feedback := "" },
                            { name := "B", estimated_range := (1, 2), feedback := "" }],
        top_improvements := ["a", "b", "c"] } = .error "EVALUATION_FAILED" :=
  buildFinalEvaluation_mismatch_fails _ _ (by decide)

/-- C9: `buildFinalEvaluation` fails with `EVALUATION_FAILED` whenever
`top_improvements` has fewer than 3 entries, and every emitted report's
`top_improvements` is exactly the first 3 entries of the evaluation's list. -/
theorem buildFinalEvaluation_top_improvements (rubric : Rubric) (ev : Evaluation) :
    (ev.top_improvements.length < 3 →
      buildFinalEvaluation rubric ev = .error "EVALUATION_FAILED") ∧
    (∀ report, buildFinalEvaluation rubric ev = .ok report →
      report.top_improvements = ev.top_improvements.take 3 ∧
      report.top_improvements.length = 3) := by
  constructor
  · intro hlt
    cases h : buildFinalEvaluation rubric ev with
    | error e =>
      rw [buildFinalEvaluation_error_msg rubric ev e h]
    | ok report =>
      obtain ⟨_, _, _, _, _, _, _, _, hge⟩ := buildFinalEvaluation_ok_inv rubric ev report h
      omega
  · intro report h
    obtain ⟨_, _, _, _, _, _, _, htake, hge⟩ := buildFinalEvaluation_ok_inv rubric ev report h
    refine ⟨htake, ?_⟩
    rw [htake]
    simp only [List.length_take]
    omega

/-- Witness for C9: an evaluation with only 2 improvements fails, and the
successful run of the C2 witness keeps exactly the first 3. -/
theorem buildFinalEvaluation_top_improvements_witness :
    buildFinalEvaluation
      { criteria := [{ name := "A", max_score := 10, description := "" },
                     { name := "B", max_score := 10, description := "" }] }
      { summary := "s",
        criteria_scores := [{ name := "A", estimated_range := (1, 2), feedback := "" },
                            { name := "B", estimated_range := (1, 2), feedback := "" }],
        top_improvements := ["a", "b"] } = .error "EVALUATION_FAILED" :=
  (buildFinalEvaluation_top_improvements _ _).1 (by decide)

/-! ## Criterion-key normalization: structure lemmas

The pipeline `replaceRuns` → `trimList` → `collapseWs` is characterized as the
space-joined list of maximal alphanumeric runs; case and punctuation-spacing
invariance then follow. -/

/-- Whether the text begins with a non-alphanumeric character. -/
def startsSep : List Char → Bool
  | [] => false
  | c :: _ => !isAlnumChar c

/-- Prepend a character to the run decomposition: glued onto the first run
when the following text continues the run, as a fresh singleton run otherwise. -/
def glueRun (c : Char) (glue : Bool) (rs : List (List Char)) : List (List Char) :=
  if glue then
    match rs with
    | [] => [[c]]
    | w :: ws => (c :: w) :: ws
  else [c] :: rs

/-- The maximal runs of alphanumeric characters, in order. -/
def alnumRuns : List Char → List (List Char)
  | [] => []
  | c :: rest =>
    if isAlnumChar c then glueRun c (!startsSep rest) (alnumRuns rest)
    else alnumRuns rest

theorem alnumRuns_cons (c : Char) (rest : List Char) :
    alnumRuns (c :: rest) =
      if isAlnumChar c then glueRun c (!startsSep rest) (alnumRuns rest)
      else alnumRuns rest := rfl

/-- Whether the text ends with a non-alphanumeric character. -/
def endsSep (l : List Char) : Bool :=
  match l.getLast? with
  | none => false
  | some c => !isAlnumChar c

/-- Join words with single spaces. -/
def joinSpace : List (List Char) → List Char
  | [] => []
  | [w] => w
  | w :: ws => w ++ ' ' :: joinSpace ws

/-- The alphanumeric segments of the text including empty boundary segments
when the text starts or ends with a separator run. -/
def boundarySegs (l : List Char) : List (List Char) :=
  (if startsSep l then [([] : List Char)] else []) ++ alnumRuns l ++
    (if endsSep l then [([] : List Char)] else [])

theorem lookup_pair_mem {α β : Type} [BEq α] [LawfulBEq α] :
    ∀ (l : List (α × β)) (a : α) (b : β),
    List.lookup a l = some b → (a, b) ∈ l
  | [], _, _, h => by simp at h
  | (k, v) :: t, a, b, h => by
    rw [List.lookup_cons] at h
    cases hak : (a == k) with
    | true =>
      rw [hak] at h
      simp only [Option.some.injEq] at h
      subst h
      have := eq_of_beq hak
      subst this
      exact List.mem_cons_self _ _
    | false =>
      rw [hak] at h
      exact List.mem_cons_of_mem _ (lookup_pair_mem t a b h)

theorem isAlnumChar_lowerChar (c : Char) :
    isAlnumChar (lowerChar c) = isAlnumChar c := by
  unfold lowerChar
  cases hl : List.lookup c lowerPairs with
  | none => rfl
  | some d =>
    have hmem := lookup_pair_mem lowerPairs c d hl
    have hall : ∀ p ∈ lowerPairs, isAlnumChar p.2 = isAlnumChar p.1 := by decide
    exact hall (c, d) hmem

theorem not_isJsWsChar_of_isAlnumChar {c : Char} (h : isAlnumChar c = true) :
    isJsWsChar c = false := by
  unfold isAlnumChar at h
  unfold isJsWsChar
  simp only [decide_eq_true_eq] at h
  simp only [decide_eq_false_iff_not]
  omega

theorem joinSpace_cons_cons (c : Char) (w : List Char) (T : List (List Char)) :
    joinSpace ((c :: w) :: T) = c :: joinSpace (w :: T) := by
  cases T with
  | nil => rfl
  | cons t ts => rfl

theorem alnumRuns_cons_sep {c : Char} (hc : isAlnumChar c = false)
    (rest : List Char) : alnumRuns (c :: rest) = alnumRuns rest := by
  rw [alnumRuns_cons, if_neg (by simp [hc])]

theorem alnumRuns_single_alnum {c : Char} (hc : isAlnumChar c = true) :
    alnumRuns [c] = [[c]] := by
  rw [alnumRuns_cons, if_pos hc]
  rfl

theorem alnumRuns_ne_nil_of_head_alnum {d : Char} (hd : isAlnumChar d = true)
    (t : List Char) : alnumRuns (d :: t) ≠ [] := by
  rw [alnumRuns_cons, if_pos hd]
  unfold glueRun
  split_ifs
  · cases alnumRuns t <;> simp
  · simp

theorem alnumRuns_cons_cons_alnum {c d : Char} (hc : isAlnumChar c = true)
    (hd : isAlnumChar d = true) (t : List Char) (w : List Char)
    (ws : List (List Char)) (hruns : alnumRuns (d :: t) = w :: ws) :
    alnumRuns (c :: d :: t) = (c :: w) :: ws := by
  rw [alnumRuns_cons, if_pos hc, hruns]
  unfold glueRun
  rw [if_pos (by simp [startsSep, hd])]

theorem alnumRuns_cons_alnum_sep {c d : Char} (hc : isAlnumChar c = true)
    (hd : isAlnumChar d = false) (t : List Char) :
    alnumRuns (c :: d :: t) = [c] :: alnumRuns (d :: t) := by
  rw [alnumRuns_cons, if_pos hc]
  unfold glueRun
  rw [if_neg (by simp [startsSep, hd])]

/-- Every alphanumeric run is non-empty and consists of alphanumeric
characters. -/
theorem alnumRuns_wf : ∀ (l : List Char) (w : List Char), w ∈ alnumRuns l →
    w ≠ [] ∧ ∀ c ∈ w, isAlnumChar c = true
  | [], w, hw => by simp [alnumRuns] at hw
  | [c], w, hw => by
    by_cases hc : isAlnumChar c
    · rw [alnumRuns_single_alnum hc] at hw
      simp only [List.mem_singleton] at hw
      subst hw
      exact ⟨by simp, by simpa using hc⟩
    · rw [alnumRuns_cons_sep (by simpa using hc), alnumRuns] at hw
      simp at hw
  | c :: d :: t, w, hw => by
    by_cases hc : isAlnumChar c
    · by_cases hd : isAlnumChar d
      · obtain ⟨w0, ws, hruns⟩ : ∃ w0 ws, alnumRuns (d :: t) = w0 :: ws := by
          cases hr : alnumRuns (d :: t) with
          | nil => exact absurd hr (alnumRuns_ne_nil_of_head_alnum hd t)
          | cons w0 ws => exact ⟨w0, ws, rfl⟩
        rw [alnumRuns_cons_cons_alnum hc hd t w0 ws hruns] at hw
        rcases List.mem_cons.mp hw with rfl | hw2
        · have h0 := alnumRuns_wf (d :: t) w0 (by rw [hruns]; simp)
          refine ⟨by simp, ?_⟩
          intro x hx
          rcases List.mem_cons.mp hx with rfl | hx2
          · exact hc
          · exact h0.2 x hx2
        · exact alnumRuns_wf (d :: t) w (by rw [hruns]; simp [hw2])
      · rw [alnumRuns_cons_alnum_sep hc (by simpa using hd) t] at hw
        rcases List.mem_cons.mp hw with rfl | hw2
        · exact ⟨by simp, by simpa using hc⟩
        · exact alnumRuns_wf (d :: t) w hw2
    · rw [alnumRuns_cons_sep (by simpa using hc)] at hw
      exact alnumRuns_wf (d :: t) w hw


theorem replaceRunsAux_alnum {c : Char} (hc : isAlnumChar c = true)
    (b : Bool) (rest : List Char) :
    replaceRunsAux b (c :: rest) = c :: replaceRunsAux false rest := by
  cases b <;> simp [replaceRunsAux, hc]

theorem replaceRunsAux_sep_false {c : Char} (hc : isAlnumChar c = false)
    (rest : List Char) :
    replaceRunsAux false (c :: rest) = ' ' :: replaceRunsAux true rest := by
  simp [replaceRunsAux, hc]

theorem replaceRunsAux_sep_true {c : Char} (hc : isAlnumChar c = false)
    (rest : List Char) :
    replaceRunsAux true (c :: rest) = replaceRunsAux true rest := by
  simp [replaceRunsAux, hc]

theorem boundarySegs_eq (l : List Char) :
    boundarySegs l =
      (if startsSep l = true then [([] : List Char)] else []) ++ alnumRuns l ++
        (if endsSep l = true then [([] : List Char)] else []) := rfl

theorem endsSep_cons_cons (c d : Char) (t : List Char) :
    endsSep (c :: d :: t) = endsSep (d :: t) := by
  unfold endsSep
  rw [List.getLast?_cons_cons]

theorem endsSep_single (c : Char) : endsSep [c] = !isAlnumChar c := by
  unfold endsSep
  simp

theorem joinSpace_nil_cons (x : List Char) (xs : List (List Char)) :
    joinSpace ([] :: x :: xs) = ' ' :: joinSpace (x :: xs) := rfl

theorem joinSpace_cons_of_ne_nil (w : List Char) {X : List (List Char)}
    (hX : X ≠ []) : joinSpace (w :: X) = w ++ ' ' :: joinSpace X := by
  cases X with
  | nil => exact absurd rfl hX
  | cons x xs => rfl

theorem alnumRuns_ne_nil_of_last_alnum :
    ∀ (l : List Char) (c : Char), l.getLast? = some c → isAlnumChar c = true →
    alnumRuns l ≠ []
  | [], c, h, _ => by simp at h
  | [a], c, h, hc => by
    simp only [List.getLast?_singleton, Option.some.injEq] at h
    subst h
    rw [alnumRuns_single_alnum hc]
    simp
  | a :: b :: t, c, h, hc => by
    have h2 : (b :: t).getLast? = some c := by
      rwa [List.getLast?_cons_cons] at h
    by_cases ha : isAlnumChar a
    · exact alnumRuns_ne_nil_of_head_alnum ha (b :: t)
    · rw [alnumRuns_cons_sep (by simpa using ha)]
      exact alnumRuns_ne_nil_of_last_alnum (b :: t) c h2 hc

theorem runsSegs_ne_nil (l : List Char) (hl : l ≠ []) :
    alnumRuns l ++ (if endsSep l = true then [([] : List Char)] else []) ≠ [] := by
  cases he : endsSep l with
  | true => simp
  | false =>
    simp only [if_neg (by simp : ¬(false = true))]
    obtain ⟨c, hc⟩ := Option.isSome_iff_exists.mp (List.getLast?_isSome.mpr hl)
    have hca : isAlnumChar c = true := by
      unfold endsSep at he
      rw [hc] at he
      simpa using he
    simpa using alnumRuns_ne_nil_of_last_alnum l c hc hca

/-- The run-replacing pass produces the space-join of the alphanumeric runs,
with a boundary space at an end that started or ended with a separator run
(no leading space when the scanner is already inside a replaced run). -/
theorem replaceRunsAux_spec : ∀ (l : List Char),
    (replaceRunsAux false l = joinSpace (boundarySegs l)) ∧
    (replaceRunsAux true l =
      joinSpace (alnumRuns l ++ (if endsSep l = true then [([] : List Char)] else [])))
  | [] => by constructor <;> rfl
  | [c] => by
    by_cases hc : isAlnumChar c
    · have hss : ¬(startsSep [c] = true) := by simp [startsSep, hc]
      have hes : ¬(endsSep [c] = true) := by simp [endsSep_single, hc]
      constructor
      · rw [replaceRunsAux_alnum hc, boundarySegs_eq, alnumRuns_single_alnum hc,
          if_neg hss, if_neg hes]
        rfl
      · rw [replaceRunsAux_alnum hc, alnumRuns_single_alnum hc, if_neg hes]
        rfl
    · have hc' : isAlnumChar c = false := by simpa using hc
      have hss : startsSep [c] = true := by simp [startsSep, hc']
      have hes : endsSep [c] = true := by simp [endsSep_single, hc']
      constructor
      · rw [replaceRunsAux_sep_false hc', boundarySegs_eq,
          alnumRuns_cons_sep hc', if_pos hss, if_pos hes]
        rfl
      · rw [replaceRunsAux_sep_true hc', alnumRuns_cons_sep hc', if_pos hes]
        rfl
  | c :: d :: t => by
    obtain ⟨ih1, ih2⟩ := replaceRunsAux_spec (d :: t)
    have hXne := runsSegs_ne_nil (d :: t) (by simp)
    have hee := endsSep_cons_cons c d t
    by_cases hc : isAlnumChar c
    · have hss : ¬(startsSep (c :: d :: t) = true) := by simp [startsSep, hc]
      by_cases hd : isAlnumChar d
      · obtain ⟨w, ws, hruns⟩ : ∃ w ws, alnumRuns (d :: t) = w :: ws := by
          cases hr : alnumRuns (d :: t) with
          | nil => exact absurd hr (alnumRuns_ne_nil_of_head_alnum hd t)
          | cons w ws => exact ⟨w, ws, rfl⟩
        have hss2 : ¬(startsSep (d :: t) = true) := by simp [startsSep, hd]
        have hsegs : boundarySegs (d :: t) =
            w :: (ws ++ (if endsSep (d :: t) = true then [([] : List Char)] else [])) := by
          rw [boundarySegs_eq, if_neg hss2, hruns]
          simp
        have hrunsC := alnumRuns_cons_cons_alnum hc hd t w ws hruns
        constructor
        · rw [replaceRunsAux_alnum hc, ih1, boundarySegs_eq (c :: d :: t), if_neg hss,
            hrunsC, hee, hsegs]
          simp only [List.nil_append, List.cons_append]
          rw [joinSpace_cons_cons]
        · rw [replaceRunsAux_alnum hc, ih1, hrunsC, hee, hsegs]
          simp only [List.cons_append]
          rw [joinSpace_cons_cons]
      · have hd' : isAlnumChar d = false := by simpa using hd
        have hss2 : startsSep (d :: t) = true := by simp [startsSep, hd']
        have hsegs : boundarySegs (d :: t) =
            [] :: (alnumRuns (d :: t) ++
              (if endsSep (d :: t) = true then [([] : List Char)] else [])) := by
          rw [boundarySegs_eq, if_pos hss2]
          simp
        have hrunsC := alnumRuns_cons_alnum_sep hc hd' t
        constructor
        · rw [replaceRunsAux_alnum hc, ih1, boundarySegs_eq (c :: d :: t), if_neg hss,
            hrunsC, hee, hsegs]
          simp only [List.nil_append, List.cons_append]
          rw [joinSpace_cons_of_ne_nil ([] : List Char) hXne,
            joinSpace_cons_of_ne_nil [c] hXne]
          simp
        · rw [replaceRunsAux_alnum hc, ih1, hrunsC, hee, hsegs]
          simp only [List.cons_append]
          rw [joinSpace_cons_of_ne_nil ([] : List Char) hXne,
            joinSpace_cons_of_ne_nil [c] hXne]
          simp
    · have hc' : isAlnumChar c = false := by simpa using hc
      have hss : startsSep (c :: d :: t) = true := by simp [startsSep, hc']
      have hrunsC := alnumRuns_cons_sep hc' (d :: t)
      constructor
      · rw [replaceRunsAux_sep_false hc', ih2, boundarySegs_eq (c :: d :: t), if_pos hss,
          hrunsC, hee]
        simp only [List.cons_append, List.nil_append]
        rw [joinSpace_cons_of_ne_nil ([] : List Char) hXne]
        simp
      · rw [replaceRunsAux_sep_true hc', ih2, hrunsC, hee]

theorem rtrim_append_ws : ∀ (l : List Char) {c : Char}, isJsWsChar c = true →
    rtrimList (l ++ [c]) = rtrimList l
  | [], c, hc => by simp [rtrimList, hc]
  | a :: l, c, hc => by
    have ih := rtrim_append_ws l hc
    simp only [List.cons_append, rtrimList, List.append_eq, ih]

theorem rtrim_append_not_ws : ∀ (l : List Char) {c : Char},
    isJsWsChar c = false → rtrimList (l ++ [c]) = l ++ [c]
  | [], c, hc => by simp [rtrimList, hc]
  | a :: l, c, hc => by
    have ih := rtrim_append_not_ws l hc
    simp only [List.cons_append, rtrimList, List.append_eq, ih]
    cases hl : l ++ [c] with
    | nil => simp at hl
    | cons x xs => rfl

/-- A non-empty list of well-formed words joins to a list ending in an
alphanumeric character. -/
theorem joinSpace_concat : ∀ (W : List (List Char)), W ≠ [] →
    (∀ w ∈ W, w ≠ [] ∧ ∀ c ∈ w, isAlnumChar c = true) →
    ∃ l c, joinSpace W = l ++ [c] ∧ isAlnumChar c = true
  | [], h, _ => absurd rfl h
  | [w], _, hwf => by
    obtain ⟨hne, hal⟩ := hwf w (by simp)
    rcases List.eq_nil_or_concat' w with rfl | ⟨L, b, rfl⟩
    · exact absurd rfl hne
    · exact ⟨L, b, rfl, hal b (by simp)⟩
  | w :: w2 :: W, _, hwf => by
    obtain ⟨l, c, hl, hc⟩ := joinSpace_concat (w2 :: W) (by simp)
      (fun v hv => hwf v (List.mem_cons_of_mem _ hv))
    refine ⟨w ++ ' ' :: l, c, ?_, hc⟩
    rw [joinSpace_cons_of_ne_nil w (by simp), hl]
    simp

theorem joinSpace_append_empty_seg : ∀ (W : List (List Char)), W ≠ [] →
    joinSpace (W ++ [([] : List Char)]) = joinSpace W ++ [' ']
  | [], h => absurd rfl h
  | [w], _ => by
    rw [List.singleton_append, joinSpace_cons_of_ne_nil w (by simp)]
    rfl
  | w :: w2 :: W, _ => by
    have ih := joinSpace_append_empty_seg (w2 :: W) (by simp)
    rw [List.cons_append, joinSpace_cons_of_ne_nil w (by simp),
      joinSpace_cons_of_ne_nil w (by simp : (w2 :: W) ≠ []), ih]
    simp

/-- Dropping leading whitespace from the join of well-formed words (with an
optional trailing empty segment) is the identity. -/
theorem dropWhile_join_runs (W tm : List (List Char))
    (hwf : ∀ w ∈ W, w ≠ [] ∧ ∀ c ∈ w, isAlnumChar c = true)
    (htm : tm = [] ∨ tm = [([] : List Char)]) :
    (joinSpace (W ++ tm)).dropWhile isJsWsChar = joinSpace (W ++ tm) := by
  cases W with
  | nil =>
    rcases htm with rfl | rfl
    · rfl
    · rfl
  | cons w W' =>
    obtain ⟨hne, hal⟩ := hwf w (by simp)
    rcases List.exists_cons_of_ne_nil hne with ⟨c, w', rfl⟩
    rw [List.cons_append, joinSpace_cons_cons]
    rw [List.dropWhile_cons_of_neg]
    simp [not_isJsWsChar_of_isAlnumChar (hal c (by simp))]

/-- Right-trimming the join of well-formed words (with an optional trailing
empty segment) yields the plain join of the words. -/
theorem rtrim_join_runs (W tm : List (List Char))
    (hwf : ∀ w ∈ W, w ≠ [] ∧ ∀ c ∈ w, isAlnumChar c = true)
    (htm : tm = [] ∨ tm = [([] : List Char)]) :
    rtrimList (joinSpace (W ++ tm)) = joinSpace W := by
  have hid : rtrimList (joinSpace W) = joinSpace W := by
    cases hW : W with
    | nil => rfl
    | cons w W' =>
      obtain ⟨l, c, hl, hc⟩ := joinSpace_concat (w :: W') (by simp) (hW ▸ hwf)
      rw [hl]
      exact rtrim_append_not_ws l (not_isJsWsChar_of_isAlnumChar hc)
  rcases htm with rfl | rfl
  · simpa using hid
  · cases hW : W with
    | nil => rfl
    | cons w W' =>
      rw [joinSpace_append_empty_seg (w :: W') (by simp),
        rtrim_append_ws _ (by decide : isJsWsChar ' ' = true)]
      exact hW ▸ hid

theorem collapseWsAux_not_ws {c : Char} (hc : isJsWsChar c = false)
    (b : Bool) (rest : List Char) :
    collapseWsAux b (c :: rest) = c :: collapseWsAux false rest := by
  cases b <;> simp [collapseWsAux, hc]

theorem collapseWsAux_ws_false {c : Char} (hc : isJsWsChar c = true)
    (rest : List Char) :
    collapseWsAux false (c :: rest) = ' ' :: collapseWsAux true rest := by
  simp [collapseWsAux, hc]

theorem collapseWsAux_append_not_ws : ∀ (w x : List Char),
    (∀ c ∈ w, isJsWsChar c = false) →
    collapseWsAux false (w ++ x) = w ++ collapseWsAux false x
  | [], x, _ => rfl
  | a :: w, x, hw => by
    rw [List.cons_append, collapseWsAux_not_ws (hw a (by simp)),
      collapseWsAux_append_not_ws w x (fun c hc => hw c (by simp [hc]))]
    rfl

theorem collapseWsAux_true_eq_false_of_head_not_ws :
    ∀ (l : List Char), (∀ c rest, l = c :: rest → isJsWsChar c = false) →
    collapseWsAux true l = collapseWsAux false l
  | [], _ => rfl
  | c :: rest, h => by
    rw [collapseWsAux_not_ws (h c rest rfl), collapseWsAux_not_ws (h c rest rfl)]

/-- Collapsing whitespace runs is the identity on the space-join of
well-formed words. -/
theorem collapseWs_join : ∀ (W : List (List Char)),
    (∀ w ∈ W, w ≠ [] ∧ ∀ c ∈ w, isAlnumChar c = true) →
    collapseWsAux false (joinSpace W) = joinSpace W
  | [], _ => rfl
  | [w], hwf => by
    have hnw : ∀ c ∈ w, isJsWsChar c = false := fun c hc =>
      not_isJsWsChar_of_isAlnumChar ((hwf w (by simp)).2 c hc)
    have hj : joinSpace [w] = w := rfl
    rw [hj]
    have := collapseWsAux_append_not_ws w [] hnw
    simpa [collapseWsAux] using this
  | w :: w2 :: W, hwf => by
    have hnw : ∀ c ∈ w, isJsWsChar c = false := fun c hc =>
      not_isJsWsChar_of_isAlnumChar ((hwf w (by simp)).2 c hc)
    have hih := collapseWs_join (w2 :: W)
      (fun v hv => hwf v (List.mem_cons_of_mem _ hv))
    obtain ⟨hne2, hal2⟩ := hwf w2 (by simp)
    rcases List.exists_cons_of_ne_nil hne2 with ⟨c2, w2', rfl⟩
    have hhead : ∀ cc rest2, joinSpace ((c2 :: w2') :: W) = cc :: rest2 →
        isJsWsChar cc = false := by
      intro cc rest2 hj
      rw [joinSpace_cons_cons] at hj
      simp only [List.cons.injEq] at hj
      rw [← hj.1]
      exact not_isJsWsChar_of_isAlnumChar (hal2 c2 (by simp))
    rw [joinSpace_cons_of_ne_nil w (by simp),
      collapseWsAux_append_not_ws w _ hnw,
      collapseWsAux_ws_false (by decide),
      collapseWsAux_true_eq_false_of_head_not_ws _ hhead, hih]

/-- Characterization of the replace–trim–collapse pipeline: it equals the
space-join of the maximal alphanumeric runs. -/
theorem normalizePipeline_eq (l : List Char) :
    collapseWs (trimList (replaceRuns l)) = joinSpace (alnumRuns l) := by
  have hwf := alnumRuns_wf l
  have htm : (if endsSep l = true then [([] : List Char)] else []) = [] ∨
      (if endsSep l = true then [([] : List Char)] else []) = [([] : List Char)] := by
    split_ifs
    · exact Or.inr rfl
    · exact Or.inl rfl
  unfold replaceRuns trimList collapseWs
  rw [(replaceRunsAux_spec l).1]
  have hsplit : joinSpace (boundarySegs l) =
      (if startsSep l = true then joinSpace (([] : List Char) ::
        (alnumRuns l ++ (if endsSep l = true then [([] : List Char)] else [])))
       else joinSpace (alnumRuns l ++
        (if endsSep l = true then [([] : List Char)] else []))) := by
    rw [boundarySegs_eq]
    split_ifs <;> rfl
  rw [hsplit]
  have hcore : collapseWsAux false (rtrimList ((joinSpace (alnumRuns l ++
      (if endsSep l = true then [([] : List Char)] else []))).dropWhile isJsWsChar)) =
      joinSpace (alnumRuns l) := by
    rw [dropWhile_join_runs _ _ hwf htm, rtrim_join_runs _ _ hwf htm]
    exact collapseWs_join _ hwf
  by_cases hss : startsSep l = true
  · rw [if_pos hss]
    by_cases hl : l = []
    · subst hl
      simp [startsSep] at hss
    · have hXne := runsSegs_ne_nil l hl
      rw [joinSpace_cons_of_ne_nil ([] : List Char) hXne]
      rw [List.nil_append, List.dropWhile_cons_of_pos (by decide)]
      exact hcore
  · rw [if_neg hss]
    exact hcore

theorem startsSep_map_lowerChar (l : List Char) :
    startsSep (l.map lowerChar) = startsSep l := by
  cases l with
  | nil => rfl
  | cons c rest => simp [startsSep, isAlnumChar_lowerChar]

theorem glueRun_map_lowerChar (c : Char) (g : Bool) (rs : List (List Char)) :
    glueRun (lowerChar c) g (rs.map (List.map lowerChar)) =
      (glueRun c g rs).map (List.map lowerChar) := by
  unfold glueRun
  split_ifs
  · cases rs <;> rfl
  · rfl

theorem alnumRuns_map_lowerChar : ∀ (l : List Char),
    alnumRuns (l.map lowerChar) = (alnumRuns l).map (List.map lowerChar)
  | [] => rfl
  | c :: rest => by
    rw [List.map_cons, alnumRuns_cons, alnumRuns_cons, isAlnumChar_lowerChar,
      startsSep_map_lowerChar, alnumRuns_map_lowerChar rest]
    split_ifs
    · exact glueRun_map_lowerChar c _ (alnumRuns rest)
    · rfl

/-- The words of a criterion name: its maximal alphanumeric runs after the
NFKC pass, before case folding. -/
def alnumWords (s : String) : List (List Char) :=
  alnumRuns (nfkcList s.data)

/-- Two names differ only in letter case or punctuation spacing: their word
sequences agree letter-by-letter up to case (separator runs and boundary
punctuation are ignored entirely). -/
def caseSpacingEq (s t : String) : Prop :=
  (alnumWords s).map (List.map lowerChar) = (alnumWords t).map (List.map lowerChar)

instance caseSpacingEqDecidable (s t : String) : Decidable (caseSpacingEq s t) :=
  inferInstanceAs (Decidable (_ = _))

/-- The normalized key is the space-join of the case-folded words. -/
theorem normalizeCriterionName_eq_words (s : String) :
    normalizeCriterionName s =
      String.mk (joinSpace ((alnumWords s).map (List.map lowerChar))) := by
  unfold normalizeCriterionName alnumWords
  rw [normalizePipeline_eq, alnumRuns_map_lowerChar]

theorem composeAcute_eq_none_of_not_alnum {c : Char}
    (hc : isAlnumChar c = false) : composeAcute c = none := by
  unfold composeAcute
  cases hl : List.lookup c acutePairs with
  | none => rfl
  | some d =>
    have hmem := lookup_pair_mem acutePairs c d hl
    have hall : ∀ p ∈ acutePairs, isAlnumChar p.1 = true := by decide
    rw [hall (c, d) hmem] at hc
    cases hc

theorem nfkcAux_all_sep : ∀ (a : Char) (l : List Char),
    isAlnumChar a = false → (∀ c ∈ l, isAlnumChar c = false) →
    nfkcAux a l = a :: l
  | a, [], _, _ => rfl
  | a, b :: rest, ha, hl => by
    unfold nfkcAux
    split_ifs with hb
    · rw [composeAcute_eq_none_of_not_alnum ha]
      rw [nfkcAux_all_sep b rest (hl b (by simp)) (fun c hc => hl c (by simp [hc]))]
    · rw [nfkcAux_all_sep b rest (hl b (by simp)) (fun c hc => hl c (by simp [hc]))]

theorem nfkcList_all_sep (l : List Char) (hl : ∀ c ∈ l, isAlnumChar c = false) :
    nfkcList l = l := by
  cases l with
  | nil => rfl
  | cons a rest =>
    unfold nfkcList
    exact nfkcAux_all_sep a rest (hl a (by simp)) (fun c hc => hl c (by simp [hc]))

theorem alnumRuns_all_sep : ∀ (l : List Char),
    (∀ c ∈ l, isAlnumChar c = false) → alnumRuns l = []
  | [], _ => rfl
  | c :: rest, hl => by
    rw [alnumRuns_cons_sep (hl c (by simp))]
    exact alnumRuns_all_sep rest (fun d hd => hl d (by simp [hd]))

/-- C4 counterexample: the names `"Café"` and `"Cafe"` differ only in the
accent on the final letter, yet their normalized keys differ — the normalizer
lowercases and strips punctuation but never strips accents. -/
theorem normalizeCriterionName_accent_counterexample :
    normalizeCriterionName "Café" ≠ normalizeCriterionName "Cafe" ∧
    normalizeCriterionName "Café" = "café" ∧
    normalizeCriterionName "Cafe" = "cafe" := by
  refine ⟨?_, ?_, ?_⟩ <;> decide

/-- C4 amended: two names that differ only in letter case or punctuation
spacing (same letter sequence up to case in each word, arbitrary
non-alphanumeric separators and boundaries) normalize to the same key, and
every all-punctuation or empty name normalizes to the empty key. Accents are
preserved (only composed, not stripped), so accented and unaccented names are
distinct keys. -/
theorem normalizeCriterionName_case_spacing :
    (∀ s t : String, caseSpacingEq s t →
      normalizeCriterionName s = normalizeCriterionName t) ∧
    (∀ s : String, (∀ c ∈ s.data, isAlnumChar c = false) →
      normalizeCriterionName s = "") := by
  constructor
  · intro s t h
    rw [normalizeCriterionName_eq_words s, normalizeCriterionName_eq_words t, h]
  · intro s hs
    rw [normalizeCriterionName_eq_words s]
    unfold alnumWords
    rw [nfkcList_all_sep s.data hs, alnumRuns_all_sep s.data hs]
    rfl

/-- Witness for C4 at names differing in case and punctuation spacing, and at
an all-punctuation name. -/
theorem normalizeCriterionName_case_spacing_witness :
    normalizeCriterionName "Home-Work:  1" = normalizeCriterionName " home WORK 1 " ∧
    normalizeCriterionName "?!*" = "" :=
  ⟨normalizeCriterionName_case_spacing.1 "Home-Work:  1" " home WORK 1 " (by decide),
   normalizeCriterionName_case_spacing.2 "?!*" (by decide)⟩

/-! ## Model-output JSON recovery

Embedded from `extractJsonCandidate` and `parseModelJson` in the OpenAI client
module. `JSON.parse` is modelled by a strict parser for the JSON grammar over
`List Char` (numbers become exact rationals instead of IEEE doubles; lone
surrogate `\u` escapes, which JavaScript strings allow, are outside the
modelled repertoire). Characters are compared by code point. -/

inductive Json where
  | null : Json
  | bool (b : Bool) : Json
  | num (q : ℚ) : Json
  | str (s : String) : Json
  | arr (elements : List Json) : Json
  | obj (members : List (String × Json)) : Json

/-- JSON insignificant whitespace: space, tab, line feed, carriage return. -/
def isJsonWs (c : Char) : Bool :=
  decide (c.toNat = 32 ∨ c.toNat = 9 ∨ c.toNat = 10 ∨ c.toNat = 13)

def isDigit (c : Char) : Bool :=
  decide (48 ≤ c.toNat ∧ c.toNat ≤ 57)

def hexVal (c : Char) : Option Nat :=
  if 48 ≤ c.toNat ∧ c.toNat ≤ 57 then some (c.toNat - 48)
  else if 97 ≤ c.toNat ∧ c.toNat ≤ 102 then some (c.toNat - 87)
  else if 65 ≤ c.toNat ∧ c.toNat ≤ 70 then some (c.toNat - 55)
  else none

def digitsToNat (ds : List Char) : Nat :=
  ds.foldl (fun acc c => acc * 10 + (c.toNat - 48)) 0

/-- Parse a JSON string body after the opening quote, handling escapes;
returns the content and the remainder after the closing quote. -/
def parseStringBody : List Char → Option (List Char × List Char)
  | [] => none
  | c :: rest =>
    if c.toNat = 34 then some ([], rest)
    else if c.toNat = 92 then
      match rest with
      | [] => none
      | e :: rest2 =>
        if e.toNat = 34 ∨ e.toNat = 92 ∨ e.toNat = 47 then
          (parseStringBody rest2).map (fun p => (e :: p.1, p.2))
        else if e = 'b' then
          (parseStringBody rest2).map (fun p => (Char.ofNat 8 :: p.1, p.2))
        else if e = 'f' then
          (parseStringBody rest2).map (fun p => (Char.ofNat 12 :: p.1, p.2))
        else if e = 'n' then
          (parseStringBody rest2).map (fun p => (Char.ofNat 10 :: p.1, p.2))
        else if e = 'r' then
          (parseStringBody rest2).map (fun p => (Char.ofNat 13 :: p.1, p.2))
        else if e = 't' then
          (parseStringBody rest2).map (fun p => (Char.ofNat 9 :: p.1, p.2))
        else if e = 'u' then
          match rest2 with
          | h1 :: h2 :: h3 :: h4 :: rest3 =>
            match hexVal h1, hexVal h2, hexVal h3, hexVal h4 with
            | some v1, some v2, some v3, some v4 =>
              (parseStringBody rest3).map (fun p =>
                (Char.ofNat (((v1 * 16 + v2) * 16 + v3) * 16 + v4) :: p.1, p.2))
            | _, _, _, _ => none
          | _ => none
        else none
    else if c.toNat < 32 then none
    else (parseStringBody rest).map (fun p => (c :: p.1, p.2))

/-- Parse a JSON number per the strict grammar; the value is exact. -/
def parseNumber (l : List Char) : Option (ℚ × List Char) :=
  let signSplit : Bool × List Char :=
    match l with
    | c :: rest => if c.toNat = 45 then (true, rest) else (false, l)
    | [] => (false, l)
  let neg := signSplit.1
  match signSplit.2 with
  | [] => none
  | c :: rest =>
    if ¬ (isDigit c = true) then none
    else
      let intSplit : List Char × List Char :=
        if c.toNat = 48 then ([c], rest)
        else (c :: rest.takeWhile isDigit, rest.dropWhile isDigit)
      let intVal : ℚ := (digitsToNat intSplit.1 : ℚ)
      let fracParse : Option (ℚ × List Char) :=
        match intSplit.2 with
        | d :: rest2 =>
          if d.toNat = 46 then
            let fd := rest2.takeWhile isDigit
            if fd = [] then none
            else some ((digitsToNat fd : ℚ) / (10 : ℚ) ^ fd.length,
              rest2.dropWhile isDigit)
          else some (0, intSplit.2)
        | [] => some (0, intSplit.2)
      match fracParse with
      | none => none
      | some (fracVal, l3) =>
        let expParse : Option (ℤ × List Char) :=
          match l3 with
          | e :: rest3 =>
            if e.toNat = 101 ∨ e.toNat = 69 then
              let signSplit2 : Bool × List Char :=
                match rest3 with
                | s :: r =>
                  if s.toNat = 43 then (false, r)
                  else if s.toNat = 45 then (true, r)
                  else (false, rest3)
                | [] => (false, rest3)
              let ed := signSplit2.2.takeWhile isDigit
              if ed = [] then none
              else some ((if signSplit2.1 then -(digitsToNat ed : ℤ)
                else (digitsToNat ed : ℤ)), signSplit2.2.dropWhile isDigit)
            else some (0, l3)
          | [] => some (0, l3)
        match expParse with
        | none => none
        | some (expVal, l4) =>
          let mag : ℚ := (intVal + fracVal) * (10 : ℚ) ^ expVal
          some ((if neg then -mag else mag), l4)

mutual

/-- Strict JSON value parser (fuel-indexed recursion). -/
def parseValue : Nat → List Char → Option (Json × List Char)
  | 0, _ => none
  | fuel + 1, input =>
    match input.dropWhile isJsonWs with
    | [] => none
    | c :: rest =>
      if c = 'n' then
        match rest with
        | 'u' :: 'l' :: 'l' :: r => some (.null, r)
        | _ => none
      else if c = 't' then
        match rest with
        | 'r' :: 'u' :: 'e' :: r => some (.bool true, r)
        | _ => none
      else if c = 'f' then
        match rest with
        | 'a' :: 'l' :: 's' :: 'e' :: r => some (.bool false, r)
        | _ => none
      else if c.toNat = 34 then
        match parseStringBody rest with
        | some (content, r) => some (.str (String.mk content), r)
        | none => none
      else if c.toNat = 91 then
        match rest.dropWhile isJsonWs with
        | d :: r2 =>
          if d.toNat = 93 then some (.arr [], r2)
          else parseArrayElems fuel rest []
        | [] => none
      else if c.toNat = 123 then
        match rest.dropWhile isJsonWs with
        | d :: r2 =>
          if d.toNat = 125 then some (.obj [], r2)
          else parseObjMembers fuel rest []
        | [] => none
      else
        match parseNumber (c :: rest) with
        | some (q, r) => some (.num q, r)
        | none => none

/-- Comma-separated array elements up to the closing bracket. -/
def parseArrayElems : Nat → List Char → List Json → Option (Json × List Char)
  | 0, _, _ => none
  | fuel + 1, input, acc =>
    match parseValue fuel input with
    | none => none
    | some (v, r) =>
      match r.dropWhile isJsonWs with
      | d :: r2 =>
        if d.toNat = 44 then parseArrayElems fuel r2 (acc ++ [v])
        else if d.toNat = 93 then some (.arr (acc ++ [v]), r2)
        else none
      | [] => none

/-- Comma-separated object members up to the closing brace. -/
def parseObjMembers : Nat → List Char → List (String × Json) →
    Option (Json × List Char)
  | 0, _, _ => none
  | fuel + 1, input, acc =>
    match input.dropWhile isJsonWs with
    | q :: rest =>
      if q.toNat = 34 then
        match parseStringBody rest with
        | none => none
        | some (key, r) =>
          match r.dropWhile isJsonWs with
          | colon :: r2 =>
            if colon.toNat = 58 then
              match parseValue fuel r2 with
              | none => none
              | some (v, r3) =>
                match r3.dropWhile isJsonWs with
                | d :: r5 =>
                  if d.toNat = 44 then
                    parseObjMembers fuel r5 (acc ++ [(String.mk key, v)])
                  else if d.toNat = 125 then
                    some (.obj (acc ++ [(String.mk key, v)]), r5)
                  else none
                | [] => none
            else none
          | [] => none
      else none
    | [] => none

end

/-- Model of `JSON.parse`: parse one value, allow surrounding whitespace,
reject trailing content. -/
def jsonParse (s : String) : Option Json :=
  match parseValue (2 * s.data.length + 2) s.data with
  | some (v, rest) => if rest.dropWhile isJsonWs = [] then some v else none
  | none => none

/-- Whether the text begins with three backticks. -/
def startsWithTicks (l : List Char) : Bool :=
  match l with
  | a :: b :: c :: _ =>
    decide (a.toNat = 96 ∧ b.toNat = 96 ∧ c.toNat = 96)
  | _ => false

/-- Index of the first occurrence of three consecutive backticks. -/
def findFenceIdx : List Char → Option Nat
  | [] => none
  | l@(_ :: rest) =>
    if startsWithTicks l then some 0
    else (findFenceIdx rest).map (· + 1)

/-- Drop a case-insensitive `json` tag right after an opening fence, as the
`(?:json)?` group of the fence regex does. -/
def stripJsonTag (l : List Char) : List Char :=
  match l with
  | a :: b :: c :: d :: rest =>
    if lowerChar a = 'j' ∧ lowerChar b = 's' ∧ lowerChar c = 'o' ∧
        lowerChar d = 'n' then rest
    else l
  | _ => l

/-- Model of the first match's capture group of the fence regex
(three backticks, optional case-insensitive `json` tag, greedy leading and
trailing whitespace around a lazy capture, three closing backticks): the
content between the first fence pair, whitespace-trimmed. `none` when no
fenced region exists. -/
def fencedCapture (l : List Char) : Option (List Char) :=
  match findFenceIdx l with
  | none => none
  | some i =>
    let r := stripJsonTag (l.drop (i + 3))
    match findFenceIdx r with
    | none => none
    | some p => some (trimList (r.take p))

def firstIdxOf (c : Char) (l : List Char) : Option Nat :=
  l.findIdx? (fun d => decide (d = c))

def lastIdxOf (c : Char) (l : List Char) : Option Nat :=
  match firstIdxOf c l.reverse with
  | some i => some (l.length - 1 - i)
  | none => none

/-- The substring from the first `0x7b` brace to the last `0x7d` brace, when
the former strictly precedes the latter (the object-slice fallback). -/
def braceSliceOf (l : List Char) : Option (List Char) :=
  match firstIdxOf (Char.ofNat 123) l, lastIdxOf (Char.ofNat 125) l with
  | some s, some e => if e > s then some ((l.drop s).take (e + 1 - s)) else none
  | _, _ => none

/-- The substring from the first opening bracket to the last closing bracket,
when the former strictly precedes the latter (the array-slice fallback). -/
def bracketSliceOf (l : List Char) : Option (List Char) :=
  match firstIdxOf (Char.ofNat 91) l, lastIdxOf (Char.ofNat 93) l with
  | some s, some e => if e > s then some ((l.drop s).take (e + 1 - s)) else none
  | _, _ => none

/-- Brace/bracket-slice fallback chain ending at the trimmed raw text. -/
def sliceFallback (trimmed : List Char) : Option String :=
  match braceSliceOf trimmed with
  | some s => some (String.mk s)
  | none =>
    match bracketSliceOf trimmed with
    | some s => some (String.mk s)
    | none => some (String.mk trimmed)

/-- Embedded `extractJsonCandidate`: trim; empty text has no candidate; a
fenced block with non-empty capture wins; otherwise the brace slice, then the
bracket slice, then the trimmed text itself. -/
def extractJsonCandidate (text : String) : Option String :=
  let trimmed := trimList text.data
  if trimmed = [] then none
  else
    match fencedCapture trimmed with
    | some cap =>
      if cap ≠ [] then some (String.mk (trimList cap))
      else sliceFallback trimmed
    | none => sliceFallback trimmed

/-- The single strict-parse attempt of `parseModelJson` on a candidate: only
a parsed object is returned; `null`, arrays, and primitives fail exactly like
a parse error. -/
def decodeCandidate (candidate : String) : Except String Json :=
  match jsonParse candidate with
  | some (Json.obj members) => .ok (Json.obj members)
  | _ => .error "MODEL_JSON_PARSE_FAILED"

/-- Embedded `parseModelJson`. -/
def parseModelJson (text : String) : Except String Json :=
  match extractJsonCandidate text with
  | none => .error "MODEL_JSON_PARSE_FAILED"
  | some candidate => decodeCandidate candidate

/-- C3 counterexample: on model output that is itself a valid JSON object
whose string content merely mentions a fenced block, the recoverer fails —
the fenced capture (`"b"`) is the single parse attempt — even though a strict
parse of the trimmed raw text succeeds. The raw text is never attempted
first. -/
theorem parseModelJson_raw_first_counterexample :
    parseModelJson "\x7b\"a\":\"``` b ```\"\x7d" = .error "MODEL_JSON_PARSE_FAILED" ∧
    jsonParse (String.mk (trimList ("\x7b\"a\":\"``` b ```\"\x7d").data)) =
      some (Json.obj [("a", Json.str "``` b ```")]) := by
  constructor
  · rfl
  · rfl

/-- C3 amended: the recoverer builds exactly one candidate and makes exactly
one strict parse attempt on it, with precedence: a non-empty fenced-block
capture first, then the first-brace-to-last-brace slice, then the
first-bracket-to-last-bracket slice, and the trimmed raw text only when no
other candidate exists; with empty trimmed input it fails outright. -/
theorem parseModelJson_single_candidate :
    (∀ t : String, trimList t.data = [] →
      parseModelJson t = .error "MODEL_JSON_PARSE_FAILED") ∧
    (∀ (t : String) (f : List Char), fencedCapture (trimList t.data) = some f →
      f ≠ [] → parseModelJson t = decodeCandidate (String.mk (trimList f))) ∧
    (∀ (t : String) (s : List Char), trimList t.data ≠ [] →
      (fencedCapture (trimList t.data) = none ∨
        fencedCapture (trimList t.data) = some []) →
      braceSliceOf (trimList t.data) = some s →
      parseModelJson t = decodeCandidate (String.mk s)) ∧
    (∀ (t : String) (s : List Char), trimList t.data ≠ [] →
      (fencedCapture (trimList t.data) = none ∨
        fencedCapture (trimList t.data) = some []) →
      braceSliceOf (trimList t.data) = none →
      bracketSliceOf (trimList t.data) = some s →
      parseModelJson t = decodeCandidate (String.mk s)) ∧
    (∀ t : String, trimList t.data ≠ [] →
      (fencedCapture (trimList t.data) = none ∨
        fencedCapture (trimList t.data) = some []) →
      braceSliceOf (trimList t.data) = none →
      bracketSliceOf (trimList t.data) = none →
      parseModelJson t = decodeCandidate (String.mk (trimList t.data))) := by
  refine ⟨?_, ?_, ?_, ?_, ?_⟩
  · intro t ht
    unfold parseModelJson extractJsonCandidate
    dsimp only
    rw [if_pos ht]
  · intro t f hf hne
    have htr : trimList t.data ≠ [] := by
      intro h0
      rw [h0] at hf
      exact Option.noConfusion hf
    unfold parseModelJson extractJsonCandidate
    dsimp only
    rw [if_neg htr, hf]
    dsimp only
    rw [if_pos hne]
  · intro t s htr hfence hbr
    unfold parseModelJson extractJsonCandidate
    dsimp only
    rw [if_neg htr]
    have hfall : sliceFallback (trimList t.data) = some (String.mk s) := by
      unfold sliceFallback
      rw [hbr]
    rcases hfence with hf | hf
    · rw [hf]
      dsimp only
      rw [hfall]
    · rw [hf]
      dsimp only
      rw [if_neg (by simp), hfall]
  · intro t s htr hfence hbr hbk
    unfold parseModelJson extractJsonCandidate
    dsimp only
    rw [if_neg htr]
    have hfall : sliceFallback (trimList t.data) = some (String.mk s) := by
      unfold sliceFallback
      rw [hbr, hbk]
    rcases hfence with hf | hf
    · rw [hf]
      dsimp only
      rw [hfall]
    · rw [hf]
      dsimp only
      rw [if_neg (by simp), hfall]
  · intro t htr hfence hbr hbk
    unfold parseModelJson extractJsonCandidate
    dsimp only
    rw [if_neg htr]
    have hfall : sliceFallback (trimList t.data) =
        some (String.mk (trimList t.data)) := by
      unfold sliceFallback
      rw [hbr, hbk]
    rcases hfence with hf | hf
    · rw [hf]
      dsimp only
      rw [hfall]
    · rw [hf]
      dsimp only
      rw [if_neg (by simp), hfall]

/-- Witness for C3 exercising all five precedence cases at concrete inputs. -/
theorem parseModelJson_single_candidate_witness :
    parseModelJson "  " = .error "MODEL_JSON_PARSE_FAILED" ∧
    parseModelJson "``` null ``` \x7b\"a\":true\x7d" =
      decodeCandidate (String.mk (trimList ['n', 'u', 'l', 'l'])) ∧
    parseModelJson "x \x7b\"a\":true\x7d y" =
      decodeCandidate (String.mk ("\x7b\"a\":true\x7d").data) ∧
    parseModelJson "a [true] b" = decodeCandidate (String.mk ("[true]").data) ∧
    parseModelJson "null" = decodeCandidate (String.mk ("null").data) :=
  ⟨parseModelJson_single_candidate.1 "  " rfl,
   parseModelJson_single_candidate.2.1 "``` null ``` \x7b\"a\":true\x7d"
     ['n', 'u', 'l', 'l'] rfl (by decide),
   parseModelJson_single_candidate.2.2.1 "x \x7b\"a\":true\x7d y"
     ("\x7b\"a\":true\x7d").data (by decide) (Or.inl rfl) rfl,
   parseModelJson_single_candidate.2.2.2.1 "a [true] b" ("[true]").data
     (by decide) (Or.inl rfl) rfl rfl,
   parseModelJson_single_candidate.2.2.2.2 "null" (by decide) (Or.inl rfl)
     rfl rfl⟩

/-- C10: the recoverer only ever returns JSON objects — whenever the selected
candidate parses as `null`, an array, or a non-object primitive, it fails
with the parse-failure error instead of returning the value. -/
theorem parseModelJson_object_only :
    (∀ (t : String) (r : Json), parseModelJson t = .ok r →
      ∃ members, r = Json.obj members) ∧
    (∀ (t c : String) (v : Json), extractJsonCandidate t = some c →
      jsonParse c = some v → (∀ members, v ≠ Json.obj members) →
      parseModelJson t = .error "MODEL_JSON_PARSE_FAILED") := by
  constructor
  · intro t r h
    unfold parseModelJson at h
    cases he : extractJsonCandidate t with
    | none =>
      rw [he] at h
      exact Except.noConfusion h
    | some c =>
      rw [he] at h
      dsimp only at h
      unfold decodeCandidate at h
      cases hj : jsonParse c with
      | none =>
        rw [hj] at h
        exact Except.noConfusion h
      | some v =>
        rw [hj] at h
        cases v with
        | obj members => exact ⟨members, (Except.ok.inj h).symm⟩
        | null => exact Except.noConfusion h
        | bool b => exact Except.noConfusion h
        | num q => exact Except.noConfusion h
        | str s => exact Except.noConfusion h
        | arr es => exact Except.noConfusion h
  · intro t c v he hj hv
    unfold parseModelJson
    rw [he]
    dsimp only
    unfold decodeCandidate
    rw [hj]
    cases v with
    | obj members => exact absurd rfl (hv members)
    | null => rfl
    | bool b => rfl
    | num q => rfl
    | str s => rfl
    | arr es => rfl

/-- Witness for C10: the array-shaped output `"[true]"` and primitive output
`"null"` are recovered as candidates but rejected. -/
theorem parseModelJson_object_only_witness :
    parseModelJson "[true]" = .error "MODEL_JSON_PARSE_FAILED" ∧
    parseModelJson "null" = .error "MODEL_JSON_PARSE_FAILED" :=
  ⟨parseModelJson_object_only.2 "[true]" "[true]" (Json.arr [Json.bool true])
     rfl rfl (fun _ h => Json.noConfusion h),
   parseModelJson_object_only.2 "null" "null" Json.null rfl rfl
     (fun _ h => Json.noConfusion h)⟩

end RubriCheck
